import Mathlib

/-!
# Verification of the ttyxcvr live-editing synchronization engine

Shallow embedding of the Go sources `diff.go` and `main.go` of the
`ttyxcvr` terminal LRC client, together with proofs about the embedded
definitions.

Conventions of the embedding:
* UTF-16 code units and Unicode code points (Go `uint16` / `rune`) are
  modelled as `Nat`; all values occurring are far below any overflow
  boundary, and the Go code performs no wrap-around arithmetic on them.
* Go strings are modelled as lists of code points (`List Nat`), matching
  Go's `[]rune(s)` view; `utf16.Encode`/`utf16.Decode` are modelled
  explicitly, including their replacement-character (U+FFFD) behaviour on
  unpaired surrogates.
* Go slices are `List`, Go maps are association lists, Go pointers to
  immutable nodes (`*EditSegment`) are inductive values.
* Fallible operations return `Option`/`Except`; a Go panic or an
  infinite loop is modelled as `none`.
-/

namespace Ttyxcvr

/-! ## diff.go: edit types and the segment heap -/

/-- `EditType` from diff.go: the Go constants `EditAdd`, `EditKeep`,
`EditDel`, `EditNil` (iota 0,1,2,3) become constructors. -/
inductive EditType where
  | add  : EditType
  | keep : EditType
  | del  : EditType
  | nil  : EditType
deriving DecidableEq, Repr

/-- `Edit` from diff.go: an edit run with its UTF-16 code-unit payload. -/
structure Edit where
  editType : EditType
  utf16Text : List Nat
deriving DecidableEq, Repr

/-- `EditSegment` from diff.go: a search node holding accumulated weight,
the two grid coordinates, and the back-reference to its predecessor.
The Go struct has a `parent *EditSegment` field; `root` is a node whose
parent pointer is nil, `child` one whose parent pointer is non-nil.
Nodes are never mutated after creation, so the pointer chain is a value. -/
inductive EditSegment where
  | root (weight aidx bidx : Nat) : EditSegment
  | child (weight aidx bidx : Nat) (parent : EditSegment) : EditSegment
deriving DecidableEq, Repr

namespace EditSegment

/-- Accumulated cost of the path ending at this node. -/
def weight : EditSegment → Nat
  | .root w _ _ => w
  | .child w _ _ _ => w

/-- Position consumed in `wordA`. -/
def aidx : EditSegment → Nat
  | .root _ a _ => a
  | .child _ a _ _ => a

/-- Position consumed in `wordB`. -/
def bidx : EditSegment → Nat
  | .root _ _ b => b
  | .child _ _ b _ => b

end EditSegment

/-- `(*EditSegment).lighter` from diff.go: order by weight ascending,
ties broken by `aidx+bidx` descending. -/
def lighter (seg A : EditSegment) : Bool :=
  if seg.weight < A.weight then true
  else if seg.weight > A.weight then false
  else decide (seg.aidx + seg.bidx > A.aidx + A.bidx)

/-- Default segment used for (always in-range) list indexing,
mirroring Go's direct slice indexing. -/
def dseg : EditSegment := .root 0 0 0

/-- `SegmentHeap` from diff.go: the slice of segments plus the
`searched` map from coordinates to bool (modelled as the list of
coordinates mapped to true). -/
structure SegmentHeap where
  segments : List EditSegment
  searched : List (Nat × Nat)
deriving Repr

/-- `NewSegmentHeap` from diff.go. -/
def NewSegmentHeap : SegmentHeap := ⟨[], []⟩

/-- The recursion of `siftUp`, made structural on a fuel bound so that
the whole development stays kernel-computable; the index strictly
decreases at each step, so fuel `idx` (supplied by the wrapper below)
always suffices and the `fuel = 0` base case coincides with the
`idx = 0` exit. -/
def siftUpFuel : Nat → List EditSegment → Nat → List EditSegment
  | 0, segs, _ => segs
  | fuel + 1, segs, idx =>
    if idx = 0 then segs
    else if lighter (segs.getD idx dseg) (segs.getD ((idx - 1) / 2) dseg) then
      siftUpFuel fuel ((segs.set ((idx - 1) / 2) (segs.getD idx dseg)).set idx
        (segs.getD ((idx - 1) / 2) dseg)) ((idx - 1) / 2)
    else segs

/-- `(*SegmentHeap).siftUp` from diff.go, acting on the segments slice.
Swaps the node at `idx` with its parent (Go's `upperidx`, `(idx-1)/2`,
here inlined) while it is `lighter`. -/
def siftUp (segs : List EditSegment) (idx : Nat) : List EditSegment :=
  siftUpFuel idx segs idx

/-- The recursion of `siftDown`, made structural on a fuel bound; the
distance `segs.length - idx` strictly decreases, so fuel `segs.length`
(supplied by the wrapper) always suffices — when the fuel is exhausted
the index is already past the end and both guards are false anyway. -/
def siftDownFuel : Nat → List EditSegment → Nat → List EditSegment
  | 0, segs, _ => segs
  | fuel + 1, segs, idx =>
    if idx * 2 + 1 < segs.length ∧ lighter (segs.getD (idx * 2 + 1) dseg) (segs.getD idx dseg) then
      siftDownFuel fuel ((segs.set idx (segs.getD (idx * 2 + 1) dseg)).set (idx * 2 + 1)
        (segs.getD idx dseg)) (idx * 2 + 1)
    else if idx * 2 + 2 < segs.length ∧ lighter (segs.getD (idx * 2 + 2) dseg) (segs.getD idx dseg) then
      siftDownFuel fuel ((segs.set idx (segs.getD (idx * 2 + 2) dseg)).set (idx * 2 + 2)
        (segs.getD idx dseg)) (idx * 2 + 2)
    else segs

/-- `(*SegmentHeap).siftDown` from diff.go (Go's `loweridx`/`lower2idx`
locals inlined as `idx*2+1` / `idx*2+2`).  Note the faithful quirk: it
swaps with the first child when that child is lighter, without comparing
the two children against each other. -/
def siftDown (segs : List EditSegment) (idx : Nat) : List EditSegment :=
  siftDownFuel segs.length segs idx

namespace SegmentHeap

/-- `(*SegmentHeap).Add` from diff.go: skip if the coordinate was already
searched, otherwise append, mark searched, and sift up from the end. -/
def Add (h : SegmentHeap) (seg : EditSegment) : SegmentHeap :=
  if (seg.aidx, seg.bidx) ∈ h.searched then h
  else
    { segments := siftUp (h.segments ++ [seg]) h.segments.length
      searched := (seg.aidx, seg.bidx) :: h.searched }

/-- `(*SegmentHeap).PopFront` from diff.go: return the front node, move
the last node to the front, and sift down. -/
def PopFront (h : SegmentHeap) : Option EditSegment × SegmentHeap :=
  match h.segments with
  | [] => (none, h)
  | [x] => (some x, { h with segments := [] })
  | x :: y :: rest =>
    (some x,
      { h with
        segments := siftDown
          (((x :: y :: rest).set 0
            ((x :: y :: rest).getD ((x :: y :: rest).length - 1) dseg)).dropLast) 0 })

end SegmentHeap

/-! ## diff.go: the Diff search loop and path reconstruction -/

/-- Guarded `Add` (one `if cond { heap.Add(...) }` step of Diff's loop
body). -/
def SegmentHeap.addIf (h : SegmentHeap) (c : Prop) [Decidable c]
    (seg : EditSegment) : SegmentHeap :=
  if c then h.Add seg else h

/-- The three conditional `heap.Add` calls in the body of Diff's loop:
the zero-cost diagonal successor when the current units match, the
delete successor while `wordA` is not exhausted, and the insert
successor while `wordB` is not exhausted (in that order). -/
def addNeighbors (wordA wordB : List Nat) (heap : SegmentHeap)
    (segment : EditSegment) : SegmentHeap :=
  ((heap.addIf
      (segment.aidx ≠ wordA.length ∧ segment.bidx ≠ wordB.length ∧
        wordA.getD segment.aidx 0 = wordB.getD segment.bidx 0)
      (.child segment.weight (segment.aidx + 1) (segment.bidx + 1) segment)).addIf
    (segment.aidx ≠ wordA.length)
    (.child (segment.weight + 1) (segment.aidx + 1) segment.bidx segment)).addIf
    (segment.bidx ≠ wordB.length)
    (.child (segment.weight + 1) segment.aidx (segment.bidx + 1) segment)

/-- The body of Diff's search loop in diff.go, with explicit fuel.  The
Go loop runs until the popped segment is the terminal coordinate; we
prove below that the supplied fuel always suffices, so `none` (the
Go program failing to terminate, which never happens) is never hit. -/
def diffLoop (wordA wordB : List Nat) : Nat → SegmentHeap → EditSegment → Option EditSegment
  | 0, _, _ => none
  | fuel + 1, heap, segment =>
    if segment.aidx = wordA.length ∧ segment.bidx = wordB.length then some segment
    else
      match (addNeighbors wordA wordB heap segment).PopFront with
      | (none, _) => none
      | (some s, h4) => diffLoop wordA wordB fuel h4 s

/-- The reconstruction loop at the end of Diff in diff.go: walk the
parent chain from the terminal segment back to the root, turning each
step into a Keep/Del/Add unit and merging adjacent units of the same
type into runs (runs are built by prepending, as in the Go code). -/
def reconstructLoop (wordA wordB : List Nat) :
    EditSegment → Edit → List Edit → List Edit
  | .root _ _ _, currentEdit, edits => currentEdit :: edits
  | .child _ a b prev, currentEdit, edits =>
    let diffA := prev.aidx ≠ a
    let diffB := prev.bidx ≠ b
    let et : EditType :=
      if diffA ∧ diffB then .keep
      else if diffA then .del
      else if diffB then .add
      else .nil
    let char : Nat :=
      if diffA ∧ diffB then wordA.getD prev.aidx 0
      else if diffA then wordA.getD prev.aidx 0
      else if diffB then wordB.getD prev.bidx 0
      else 0
    if currentEdit.editType ≠ et then
      reconstructLoop wordA wordB prev ⟨et, [char]⟩
        (if currentEdit.editType ≠ .nil then currentEdit :: edits else edits)
    else
      reconstructLoop wordA wordB prev ⟨et, char :: currentEdit.utf16Text⟩ edits

/-- Fuel used by `Diff`; sufficiency is proved below. -/
def diffFuel (wordA wordB : List Nat) : Nat :=
  2 * ((wordA.length + 1) * (wordB.length + 1)) + 1

/-- `Diff` from diff.go: the shortest-edit-script search.  `none` models
the Go program never terminating or dereferencing a nil pop, neither of
which occurs (proved below). -/
def Diff (wordA wordB : List Nat) : Option (List Edit) :=
  let heap := NewSegmentHeap.Add (.root 0 0 0)
  match heap.PopFront with
  | (none, _) => none
  | (some segment, heap2) =>
    match diffLoop wordA wordB (diffFuel wordA wordB) heap2 segment with
    | none => none
    | some terminal => some (reconstructLoop wordA wordB terminal ⟨.nil, []⟩ [])

/-! ## main.go: UTF-16 conversions

Go's `unicode/utf16` package, used by the store: `Encode` turns runes
into code units (astral runes become surrogate pairs, invalid runes
become U+FFFD), `Decode` turns units into runes (unpaired surrogates
become U+FFFD). -/

/-- Is `u` a UTF-16 high (leading) surrogate code unit? -/
def isHighSurr (u : Nat) : Bool := decide (0xD800 ≤ u ∧ u < 0xDC00)

/-- Is `u` a UTF-16 low (trailing) surrogate code unit? -/
def isLowSurr (u : Nat) : Bool := decide (0xDC00 ≤ u ∧ u < 0xE000)

/-- Is `u` in the surrogate range? -/
def isSurr (u : Nat) : Bool := decide (0xD800 ≤ u ∧ u < 0xE000)

/-- Go `utf16.Decode`: code units to runes, unpaired surrogates to U+FFFD. -/
def utf16Decode : List Nat → List Nat
  | [] => []
  | [u] => [if isSurr u then 0xFFFD else u]
  | u1 :: u2 :: rest =>
    if isHighSurr u1 ∧ isLowSurr u2 then
      (0x10000 + (u1 - 0xD800) * 0x400 + (u2 - 0xDC00)) :: utf16Decode rest
    else
      (if isSurr u1 then 0xFFFD else u1) :: utf16Decode (u2 :: rest)

/-- Go `utf16.EncodeRune`-style encoding of a single rune. -/
def encodeRune (r : Nat) : List Nat :=
  if r < 0xD800 ∨ (0xE000 ≤ r ∧ r < 0x10000) then [r]
  else if 0x10000 ≤ r ∧ r ≤ 0x10FFFF then
    [0xD800 + (r - 0x10000) / 0x400, 0xDC00 + (r - 0x10000) % 0x400]
  else [0xFFFD]

/-- Go `utf16.Encode`: runes to code units. -/
def utf16Encode (rs : List Nat) : List Nat := rs.flatMap encodeRune

/-! ## main.go: document store

A Go string is modelled as its list of runes (code points); `Message`
mirrors the `Message` struct (the `rendered` display cache, a pure
function of the other fields and the terminal styling, is
presentation-layer and not modelled).  The `msgs map[uint32]*Message`
becomes an association list (only lookup and insert are performed, so
map iteration order is irrelevant), and the `render []*string` slice of
pointers into the messages is tracked by the id of the message each
appended entry renders. -/

/-- `insertAtUTF16Index` from main.go: insert runes at a UTF-16 offset,
padding with ASCII spaces when the offset exceeds the current length. -/
def insertAtUTF16Index (base : List Nat) (index : Nat) (ins : List Nat) : List Nat :=
  let baseUnits := utf16Encode base
  let base2 :=
    if baseUnits.length < index then
      base ++ List.replicate (index - baseUnits.length) 0x20
    else base
  let bu := utf16Encode base2
  let iu := utf16Encode ins
  utf16Decode (bu.take index ++ iu ++ bu.drop index)

/-- `deleteBtwnUTF16Indices` from main.go (`finish` is Go's `end`):
remove the code units in `[start, finish)`, clamping `finish` to the
length and ignoring an out-of-range `start`. -/
def deleteBtwnUTF16Indices (base : List Nat) (start finish : Nat) : List Nat :=
  if finish ≤ start then base
  else
    let bu := utf16Encode base
    let finish2 := if bu.length < finish then bu.length else finish
    if bu.length < start then base
    else utf16Decode (bu.take start ++ bu.drop finish2)

/-- `Message` from main.go (minus the `rendered` display cache). -/
structure Message where
  nick : Option (List Nat)
  handle : Option (List Nat)
  color : Option Nat
  active : Bool
  text : List Nat
deriving DecidableEq, Repr

/-- The `msgs map[uint32]*Message` as an association list. -/
abbrev MsgMap := List (Nat × Message)

/-- Go map read `msgmap[id]` (nil when absent). -/
def mapLookup (m : MsgMap) (id : Nat) : Option Message :=
  (m.find? (fun p => p.1 = id)).map Prod.snd

/-- Go map write `msgmap[id] = v`. -/
def mapInsert : MsgMap → Nat → Message → MsgMap
  | [], id, v => [(id, v)]
  | p :: rest, id, v =>
    if p.1 = id then (id, v) :: rest else p :: mapInsert rest id v

/-- The fields of `channelmodel` from main.go that the claims concern:
the message map, the render slice (tracked by message id, in append
order), and the myid/signeturi correlation state.  UI fields (viewport,
draft input, websocket handles) are presentation/transport and are not
modelled. -/
structure ChannelModel where
  msgs : MsgMap
  render : List Nat
  myid : Option Nat
  signeturi : Option (List Nat)
deriving DecidableEq, Repr

/-- A sub-operation of an `lrcpb.EditBatch` (its own optional id is
overridden by the outer batch id in `editMessage`). -/
inductive WireEdit where
  | insert (id : Option Nat) (utf16Index : Nat) (body : List Nat) : WireEdit
  | delete (id : Option Nat) (utf16Start utf16End : Nat) : WireEdit
deriving DecidableEq, Repr

/-- The inbound `lrcpb.Event` cases that mutate the document store
(Ping/Pong/Mute/Unmute/Set/Get leave it unchanged and are omitted).
Identifier fields are optional, as on the wire. -/
inductive Event where
  | init (id : Option Nat) (nick handle : Option (List Nat))
      (color : Option Nat) (echoed : Option Bool) : Event
  | insert (id : Option Nat) (utf16Index : Nat) (body : List Nat) : Event
  | delete (id : Option Nat) (utf16Start utf16End : Nat) : Event
  | pub (id : Option Nat) : Event
  | editbatch (id : Option Nat) (edits : List WireEdit) : Event
deriving DecidableEq, Repr

/-- `initMessage` from main.go: a missing id is a hard error; otherwise
overwrite the message for `id` with a fresh active empty-text message
and (unconditionally) append its render entry. -/
def initMessage (id : Option Nat) (nick handle : Option (List Nat)) (color : Option Nat)
    (msgs : MsgMap) (render : List Nat) : Except String (MsgMap × List Nat) :=
  match id with
  | none => .error "beeped up"
  | some i =>
    let m : Message := ⟨nick, handle, color, true, []⟩
    .ok (mapInsert msgs i m, render ++ [i])

/-- `insertMessage` from main.go: a missing id is a hard error; an
unseen id gets a stub message whose render entry is appended. -/
def insertMessage (id : Option Nat) (utf16Index : Nat) (body : List Nat)
    (msgs : MsgMap) (render : List Nat) : Except String (MsgMap × List Nat) :=
  match id with
  | none => .error "no insert id"
  | some i =>
    match mapLookup msgs i with
    | some m =>
      .ok (mapInsert msgs i { m with text := insertAtUTF16Index m.text utf16Index body }, render)
    | none =>
      let m : Message := ⟨none, none, none, true, []⟩
      .ok (mapInsert msgs i { m with text := insertAtUTF16Index m.text utf16Index body },
        render ++ [i])

/-- `deleteMessage` from main.go. -/
def deleteMessage (id : Option Nat) (utf16Start utf16End : Nat)
    (msgs : MsgMap) (render : List Nat) : Except String (MsgMap × List Nat) :=
  match id with
  | none => .error "no insert id"
  | some i =>
    match mapLookup msgs i with
    | some m =>
      .ok (mapInsert msgs i
        { m with text := deleteBtwnUTF16Indices m.text utf16Start utf16End }, render)
    | none =>
      let m : Message := ⟨none, none, none, true, []⟩
      .ok (mapInsert msgs i
        { m with text := deleteBtwnUTF16Indices m.text utf16Start utf16End },
        render ++ [i])

/-- `pubMessage` from main.go: clear `active` if the id is present, and
silently do nothing otherwise. -/
def pubMessage (id : Option Nat) (msgs : MsgMap) : Except String MsgMap :=
  match id with
  | none => .error "no pub id"
  | some i =>
    match mapLookup msgs i with
    | some m => .ok (mapInsert msgs i { m with active := false })
    | none => .ok msgs

/-- `editMessage` from main.go: apply each sub-edit in order, overriding
its id with the outer batch id; the first error aborts the batch. -/
def editMessage (id : Nat) (edits : List WireEdit)
    (msgs : MsgMap) (render : List Nat) : Except String (MsgMap × List Nat) :=
  match edits with
  | [] => .ok (msgs, render)
  | .insert _ idx body :: rest =>
    match insertMessage (some id) idx body msgs render with
    | .error e => .error e
    | .ok (m2, r2) => editMessage id rest m2 r2
  | .delete _ s e :: rest =>
    match deleteMessage (some id) s e msgs render with
    | .error e2 => .error e2
    | .ok (m2, r2) => editMessage id rest m2 r2

/-- The document-event cases of `updateConnected` from main.go.  An
error return models the `(cm, nil, err)` path that sends the top-level
model to its terminal `Error` state. -/
def updateConnected (cm : ChannelModel) : Event → Except String ChannelModel
  | .init id nick handle color echoed =>
    match initMessage id nick handle color cm.msgs cm.render with
    | .error e => .error e
    | .ok (msgs, render) =>
      .ok { cm with msgs := msgs, render := render, myid := if echoed = some true then id else cm.myid }
  | .insert id idx body =>
    match insertMessage id idx body cm.msgs cm.render with
    | .error e => .error e
    | .ok (msgs, render) => .ok { cm with msgs := msgs, render := render }
  | .delete id s e =>
    match deleteMessage id s e cm.msgs cm.render with
    | .error e2 => .error e2
    | .ok (msgs, render) => .ok { cm with msgs := msgs, render := render }
  | .pub id =>
    match pubMessage id cm.msgs with
    | .error e => .error e
    | .ok msgs => .ok { cm with msgs := msgs }
  | .editbatch id edits =>
    match id with
    | none => .ok cm
    | some i =>
      match editMessage i edits cm.msgs cm.render with
      | .error e => .error e
      | .ok (msgs, render) => .ok { cm with msgs := msgs, render := render }

/-- Fold `updateConnected` over an event sequence. -/
def applyEvents (cm : ChannelModel) : List Event → Except String ChannelModel
  | [] => .ok cm
  | e :: rest =>
    match updateConnected cm e with
    | .error e2 => .error e2
    | .ok cm2 => applyEvents cm2 rest

/-- The fields of a `SignetView` record the correlation logic reads. -/
structure SignetView where
  uri : List Nat
  lrcId : Nat
deriving DecidableEq, Repr

/-- The `svMsg` case of `model.Update` from main.go, restricted to the
channel model it mutates: record the signet URI only when `myid` is
already known and matches the record's `lrcId` (otherwise the record
falls through to `updateConnected`, which ignores non-events). -/
def updateSv (cm : ChannelModel) (sv : SignetView) : ChannelModel :=
  match cm.myid with
  | some i => if sv.lrcId = i then { cm with signeturi := some sv.uri } else cm
  | none => cm

/-! ## main.go: outbound edit batches -/

/-- A wire-level `lrcpb.Edit` as built by `sendEditBatch` (the Insert
body is a Go string, so the UTF-16 payload is carried as its decoded
rune text). -/
inductive LrcEdit where
  | insert (utf16Index : Nat) (body : List Nat) : LrcEdit
  | delete (utf16Start utf16End : Nat) : LrcEdit
deriving DecidableEq, Repr

/-- The encoding loop of `sendEditBatch` from main.go, with its running
index: Del emits a Delete over `[idx, idx+len)` and does not advance,
Keep advances silently, Add emits an Insert at `idx` and advances.
(`EditNil` matches no case of the Go switch and is skipped.) -/
def sendEditBatchLoop (idx : Nat) : List Edit → List LrcEdit
  | [] => []
  | e :: rest =>
    match e.editType with
    | .del => .delete idx (idx + e.utf16Text.length) :: sendEditBatchLoop idx rest
    | .keep => sendEditBatchLoop (idx + e.utf16Text.length) rest
    | .add => .insert idx (utf16Decode e.utf16Text) :: sendEditBatchLoop (idx + e.utf16Text.length) rest
    | .nil => sendEditBatchLoop idx rest

/-- `sendEditBatch` from main.go: encode an edit plan into wire ops. -/
def sendEditBatch (edits : List Edit) : List LrcEdit := sendEditBatchLoop 0 edits

/-- Apply one wire op to a message text with the store's own rules
(`insertAtUTF16Index` / `deleteBtwnUTF16Indices`), as `editMessage`
does for a batch addressed to an existing message. -/
def applyLrcEdit (text : List Nat) : LrcEdit → List Nat
  | .insert i b => insertAtUTF16Index text i b
  | .delete s e => deleteBtwnUTF16Indices text s e

/-- Apply a whole batch in order. -/
def applyLrcBatch (text : List Nat) (ops : List LrcEdit) : List Nat :=
  ops.foldl applyLrcEdit text

/-! ## main.go: background stream tasks

Each task is a loop over what it receives; we model a task by the
messages it sends to the update loop along a given input trace.  The
trace element types distinguish successful reads from failures. -/

/-- One read attempt on the binary document socket. -/
inductive ReadResult where
  | ok (data : List Nat) : ReadResult
  | fail : ReadResult
deriving DecidableEq, Repr

/-- Messages a background task can send to the update loop
(`lrcEvent` is tagged with the frame payload it decoded). -/
inductive LoopMsg where
  | errMsg : LoopMsg
  | lrcEvent (data : List Nat) : LoopMsg
  | svMsgOut (sv : List Nat) : LoopMsg
deriving DecidableEq, Repr

/-- `listenToConn` from main.go.  Faithful quirk: on a read error it
sends `errMsg` but does not return; it falls through, unmarshals the
(now empty) frame — ignoring the unmarshal error entirely — sends that
as an event, and keeps looping. -/
def listenToConn : List ReadResult → List LoopMsg
  | [] => []
  | .ok d :: rest => .lrcEvent d :: listenToConn rest
  | .fail :: rest => .errMsg :: .lrcEvent [] :: listenToConn rest

/-- One read attempt on the JSON identity-correlation socket. -/
inductive LexRead where
  | fail : LexRead
  | badJson : LexRead
  | signet (sv : List Nat) : LexRead
  | badSignet : LexRead
  | other : LexRead
deriving DecidableEq, Repr

/-- `listenToLexConn` from main.go: stops (returning after an `errMsg`)
on a read or decode failure, forwards signetView records, skips other
record types. -/
def listenToLexConn : List LexRead → List LoopMsg
  | [] => []
  | .fail :: _ => [.errMsg]
  | .badJson :: _ => [.errMsg]
  | .badSignet :: _ => [.errMsg]
  | .signet sv :: rest => .svMsgOut sv :: listenToLexConn rest
  | .other :: rest => listenToLexConn rest

/-- `LRCWriter` from main.go over a trace of (payload, write-succeeded)
pairs: drains the channel, stopping with an `errMsg` at the first
failed write. -/
def LRCWriter : List (List Nat × Bool) → List LoopMsg
  | [] => []
  | (_, true) :: rest => LRCWriter rest
  | (_, false) :: _ => [.errMsg]

/-! ## Reference definitions (from the spec's words, for comparison) -/

/-- The standard insert/delete Levenshtein recurrence, structural on a
fuel bound (the summed length, supplied by the wrapper, suffices since
every recursive call shortens one of the lists). -/
def levRefFuel : Nat → List Nat → List Nat → Nat
  | 0, xs, ys => xs.length + ys.length
  | _ + 1, [], ys => ys.length
  | _ + 1, x :: xs, [] => (x :: xs).length
  | fuel + 1, x :: xs, y :: ys =>
    if x = y then levRefFuel fuel xs ys
    else 1 + min (levRefFuel fuel xs (y :: ys)) (levRefFuel fuel (x :: xs) ys)

/-- Modelled from the spec: the "true edit distance" reference of §8 —
the minimum number of single-unit insertions and deletions transforming
one sequence into the other (standard insert/delete Levenshtein
recurrence). -/
def levRef (xs ys : List Nat) : Nat :=
  levRefFuel (xs.length + ys.length) xs ys

/-- Modelled from the spec (§4.2 OpEncoder policy): a Keep run advances
the cursor and emits nothing; an Add run emits an Insert at the cursor,
then advances; a Delete run emits a Delete over the run's span and does
not advance.  The spec's plan runs are Keep/Add/Delete only, so the
`EditNil` case lies outside its domain (the comparison theorem excludes
it); Insert bodies are strings on the wire, hence carried decoded. -/
def encodeSpec (cursor : Nat) : List Edit → List LrcEdit
  | [] => []
  | e :: rest =>
    match e.editType with
    | .keep => encodeSpec (cursor + e.utf16Text.length) rest
    | .add => .insert cursor (utf16Decode e.utf16Text) :: encodeSpec (cursor + e.utf16Text.length) rest
    | .del => .delete cursor (cursor + e.utf16Text.length) :: encodeSpec cursor rest
    | .nil => encodeSpec cursor rest

/-- The number of code units in non-Keep runs of a script (the cost the
spec compares against the true edit distance). -/
def nonKeepCount (edits : List Edit) : Nat :=
  (edits.map (fun e => if e.editType = .keep ∨ e.editType = .nil then 0 else e.utf16Text.length)).sum

/-! ## Specification predicates

Predicates used to state and prove properties of the embedding; these
are not part of the program. -/

/-- Legal search chains of Diff's grid walk: a segment is `Chain A B`
when its parent pointers trace a path from the origin `(0,0)` taking
only the three legal edges (diagonal on matching units at zero cost,
delete and insert at unit cost), with the weights accumulated exactly
as `diffLoop` creates child segments. -/
inductive Chain (A B : List Nat) : EditSegment → Prop where
  | root : Chain A B (.root 0 0 0)
  | keep {p : EditSegment} : Chain A B p → p.aidx < A.length → p.bidx < B.length →
      A.getD p.aidx 0 = B.getD p.bidx 0 →
      Chain A B (.child p.weight (p.aidx + 1) (p.bidx + 1) p)
  | del {p : EditSegment} : Chain A B p → p.aidx < A.length →
      Chain A B (.child (p.weight + 1) (p.aidx + 1) p.bidx p)
  | ins {p : EditSegment} : Chain A B p → p.bidx < B.length →
      Chain A B (.child (p.weight + 1) p.aidx (p.bidx + 1) p)

/-- An edit script accounts for `a` and `b`: reading the runs in order,
Keep runs consume equal prefixes of both sides, Del runs consume a
prefix of `a`, Add runs produce a prefix of `b`, and the empty Nil run
(produced by Diff only for two empty inputs) consumes nothing.  This is
the "every position of A and B exactly once" contract of the spec. -/
inductive AccRuns : List Edit → List Nat → List Nat → Prop where
  | nil : AccRuns [] [] []
  | keep (t : List Nat) {es : List Edit} {a b : List Nat} :
      AccRuns es a b → AccRuns (⟨.keep, t⟩ :: es) (t ++ a) (t ++ b)
  | add (t : List Nat) {es : List Edit} {a b : List Nat} :
      AccRuns es a b → AccRuns (⟨.add, t⟩ :: es) a (t ++ b)
  | del (t : List Nat) {es : List Edit} {a b : List Nat} :
      AccRuns es a b → AccRuns (⟨.del, t⟩ :: es) (t ++ a) b
  | nilRun {es : List Edit} {a b : List Nat} :
      AccRuns es a b → AccRuns (⟨.nil, []⟩ :: es) a b

/-- The grid coordinates of the segments in a slice. -/
def segCoords (l : List EditSegment) : List (Nat × Nat) :=
  l.map fun s => (s.aidx, s.bidx)

/-- Termination potential of the search loop: every iteration pops one
segment and marks at most three new coordinates searched, so this
strictly decreases. -/
def phiAB (A B : List Nat) (h : SegmentHeap) : Nat :=
  h.segments.length + 2 * ((A.length + 1) * (B.length + 1) - h.searched.length)

/-- Invariant of the search loop entry (current popped segment `seg`,
heap `heap`): `done` is the ghost set of already-expanded coordinates.
Every searched coordinate lies in the grid and is either still in the
heap, expanded, or the current one; expanded coordinates are never the
terminal and have their always-legal successors searched.  This is what
makes the pop never come up empty before the terminal is reached. -/
structure TInv (A B : List Nat) (heap : SegmentHeap) (seg : EditSegment)
    (done : Nat × Nat → Prop) : Prop where
  nodup : heap.searched.Nodup
  grid : ∀ c ∈ heap.searched, c.1 ≤ A.length ∧ c.2 ≤ B.length
  origin : (0, 0) ∈ heap.searched
  segsSearched : ∀ x ∈ heap.segments, (x.aidx, x.bidx) ∈ heap.searched
  curSearched : (seg.aidx, seg.bidx) ∈ heap.searched
  cover : ∀ c ∈ heap.searched,
    c ∈ segCoords heap.segments ∨ done c ∨ c = (seg.aidx, seg.bidx)
  doneClosed : ∀ c, done c → c ∈ heap.searched ∧ c ≠ (A.length, B.length) ∧
    (c.1 < A.length → (c.1 + 1, c.2) ∈ heap.searched) ∧
    (c.2 < B.length → (c.1, c.2 + 1) ∈ heap.searched)

/-- A code point / code unit in the Basic Multilingual Plane and not a
surrogate: exactly the values on which UTF-16 encoding and decoding are
the identity, so that a text, its rune view, and its code-unit view
coincide. -/
def isBMP (u : Nat) : Prop := u < 0xD800 ∨ (0xE000 ≤ u ∧ u < 0x10000)

instance (u : Nat) : Decidable (isBMP u) := by
  unfold isBMP
  infer_instance

/-- The chain of diagonal segments `(0,0) → (1,1) → …` that the search
follows when the two inputs are equal. -/
def diagChain : Nat → EditSegment
  | 0 => .root 0 0 0
  | k + 1 => .child 0 (k + 1) (k + 1) (diagChain k)

/-- The chain of insert segments `(0,0) → (0,1) → …` that the search
follows when the old input is empty. -/
def insChain : Nat → EditSegment
  | 0 => .root 0 0 0
  | k + 1 => .child (k + 1) 0 (k + 1) (insChain k)

/-- The chain of delete segments `(0,0) → (1,0) → …` that the search
follows when the new input is empty. -/
def delChain : Nat → EditSegment
  | 0 => .root 0 0 0
  | k + 1 => .child (k + 1) (k + 1) 0 (delChain k)

/-- The display-order invariant of claim C5: the render list has exactly
one entry per observed message id — no duplicates, every listed id is in
the message map, and every mapped id is listed. -/
def storeInv (msgs : MsgMap) (render : List Nat) : Prop :=
  render.Nodup ∧ (∀ id ∈ render, (mapLookup msgs id).isSome) ∧
    (∀ p ∈ msgs, p.1 ∈ render)

instance (msgs : MsgMap) (render : List Nat) : Decidable (storeInv msgs render) := by
  unfold storeInv
  infer_instance

/-- No event in the sequence is an Init for an id that is already
present in the message map at its point of application (the situation
that makes the unconditional render append of `initMessage` duplicate
an entry). -/
def noReinit : ChannelModel → List Event → Bool
  | _, [] => true
  | cm, e :: rest =>
    (match e with
     | .init (some i) _ _ _ _ => (mapLookup cm.msgs i).isNone
     | _ => true) &&
    (match updateConnected cm e with
     | .ok cm2 => noReinit cm2 rest
     | .error _ => true)

/-! ## Heap lemmas

`siftUp` and `siftDown` only rearrange the segments slice (they are
index swaps), `Add` appends one element at most, `PopFront` removes the
front.  These permutation facts drive every invariant proof below. -/

theorem lighter_of_weight_lt {x y : EditSegment} (h : x.weight < y.weight) :
    lighter x y = true := by
  simp [lighter, h]

theorem lighter_false_of_weight_gt {x y : EditSegment} (h : y.weight < x.weight) :
    lighter x y = false := by
  simp [lighter, h]
  omega

theorem set_getD_self (l : List EditSegment) (i : Nat) (hi : i < l.length) :
    l.set i (l.getD i dseg) = l := by
  induction l generalizing i with
  | nil => simp at hi
  | cons x t ih =>
    cases i with
    | zero => simp
    | succ n =>
      simp only [List.set_cons_succ, List.getD_cons_succ]
      rw [ih n (by simpa using hi)]

theorem cons_set_perm (t : List EditSegment) (k : Nat) (x : EditSegment)
    (hk : k < t.length) : (t.getD k dseg :: t.set k x).Perm (x :: t) := by
  induction t generalizing k with
  | nil => simp at hk
  | cons y s ih =>
    cases k with
    | zero =>
      simp only [List.getD_cons_zero, List.set_cons_zero]
      exact List.Perm.swap _ _ _
    | succ n =>
      have hn : n < s.length := by simpa using hk
      simp only [List.getD_cons_succ, List.set_cons_succ]
      exact (List.Perm.swap y (s.getD n dseg) (s.set n x)).trans
        (((ih n hn).cons y).trans (List.Perm.swap x y s))

theorem swap_set_perm (l : List EditSegment) (i j : Nat)
    (hi : i < l.length) (hj : j < l.length) :
    ((l.set i (l.getD j dseg)).set j (l.getD i dseg)).Perm l := by
  induction l generalizing i j with
  | nil => simp at hi
  | cons x t ih =>
    cases i with
    | zero =>
      cases j with
      | zero => simp
      | succ m =>
        have hm : m < t.length := by simpa using hj
        simp only [List.getD_cons_succ, List.getD_cons_zero, List.set_cons_zero,
          List.set_cons_succ]
        exact cons_set_perm t m x hm
    | succ n =>
      have hn : n < t.length := by simpa using hi
      cases j with
      | zero =>
        simp only [List.getD_cons_zero, List.getD_cons_succ, List.set_cons_succ,
          List.set_cons_zero]
        exact cons_set_perm t n x hn
      | succ m =>
        have hm : m < t.length := by simpa using hj
        simp only [List.getD_cons_succ, List.set_cons_succ]
        exact (ih n m hn hm).cons x

theorem siftUpFuel_length (fuel : Nat) : ∀ (segs : List EditSegment) (idx : Nat),
    (siftUpFuel fuel segs idx).length = segs.length := by
  induction fuel with
  | zero =>
    intro segs idx
    rfl
  | succ fuel ih =>
    intro segs idx
    rw [siftUpFuel]
    split
    · rfl
    · split
      · rw [ih]
        simp
      · rfl

theorem siftUp_length (segs : List EditSegment) (idx : Nat) :
    (siftUp segs idx).length = segs.length := siftUpFuel_length idx segs idx

theorem siftUpFuel_perm (fuel : Nat) : ∀ (segs : List EditSegment) (idx : Nat),
    idx < segs.length → (siftUpFuel fuel segs idx).Perm segs := by
  induction fuel with
  | zero =>
    intro segs idx _
    exact List.Perm.refl _
  | succ fuel ih =>
    intro segs idx h
    rw [siftUpFuel]
    split
    · exact List.Perm.refl _
    · rename_i hne
      split
      · have hupl : (idx - 1) / 2 < segs.length := by omega
        exact (ih _ _ (by simp; omega)).trans (swap_set_perm segs _ idx hupl h)
      · exact List.Perm.refl _

theorem siftUp_perm (idx : Nat) (segs : List EditSegment) (h : idx < segs.length) :
    (siftUp segs idx).Perm segs := siftUpFuel_perm idx segs idx h

theorem siftDownFuel_length (fuel : Nat) : ∀ (segs : List EditSegment) (idx : Nat),
    (siftDownFuel fuel segs idx).length = segs.length := by
  induction fuel with
  | zero =>
    intro segs idx
    rfl
  | succ fuel ih =>
    intro segs idx
    rw [siftDownFuel]
    split
    · rw [ih]
      simp
    · split
      · rw [ih]
        simp
      · rfl

theorem siftDown_length (segs : List EditSegment) (idx : Nat) :
    (siftDown segs idx).length = segs.length := siftDownFuel_length segs.length segs idx

theorem siftDownFuel_perm (fuel : Nat) : ∀ (segs : List EditSegment) (idx : Nat),
    idx < segs.length → (siftDownFuel fuel segs idx).Perm segs := by
  induction fuel with
  | zero =>
    intro segs idx _
    exact List.Perm.refl _
  | succ fuel ih =>
    intro segs idx h
    rw [siftDownFuel]
    split
    · rename_i hcond
      have h1 : idx * 2 + 1 < segs.length := hcond.1
      exact (ih _ _ (by simp; omega)).trans (swap_set_perm segs idx (idx * 2 + 1) h h1)
    · split
      · rename_i hcond hcond2
        have h2 : idx * 2 + 2 < segs.length := hcond2.1
        exact (ih _ _ (by simp; omega)).trans (swap_set_perm segs idx (idx * 2 + 2) h h2)
      · exact List.Perm.refl _

theorem siftDown_perm (segs : List EditSegment) (idx : Nat) (h : idx < segs.length) :
    (siftDown segs idx).Perm segs := siftDownFuel_perm segs.length segs idx h

namespace SegmentHeap

theorem Add_searched_mem (h : SegmentHeap) (seg : EditSegment) :
    (seg.aidx, seg.bidx) ∈ (h.Add seg).searched := by
  unfold Add
  split
  · assumption
  · simp

theorem Add_searched_mono (h : SegmentHeap) (seg : EditSegment) :
    ∀ c ∈ h.searched, c ∈ (h.Add seg).searched := by
  intro c hc
  unfold Add
  split
  · exact hc
  · simp [hc]

/-- Characterize `Add`: either the coordinate was searched and nothing
changes, or the segment enters the slice (up to permutation) and the
coordinate is pushed on the searched list. -/
theorem Add_cases (h : SegmentHeap) (seg : EditSegment) :
    ((seg.aidx, seg.bidx) ∈ h.searched ∧ h.Add seg = h) ∨
    ((seg.aidx, seg.bidx) ∉ h.searched ∧
      (h.Add seg).segments.Perm (seg :: h.segments) ∧
      (h.Add seg).searched = (seg.aidx, seg.bidx) :: h.searched) := by
  unfold Add
  split
  · left; exact ⟨by assumption, rfl⟩
  · right
    refine ⟨by assumption, ?_, rfl⟩
    have hidx : h.segments.length < (h.segments ++ [seg]).length := by simp
    exact (siftUp_perm _ _ hidx).trans (List.perm_append_singleton _ _)

theorem PopFront_nil (h : SegmentHeap) (hs : h.segments = []) :
    h.PopFront = (none, h) := by
  unfold PopFront
  rw [hs]

/-- Characterize `PopFront` on a nonempty slice: the front is returned,
and what remains is a permutation of the tail; `searched` is unchanged. -/
theorem PopFront_cons (x : EditSegment) (t : List EditSegment)
    (searched : List (Nat × Nat)) :
    ∃ h2 : SegmentHeap, SegmentHeap.PopFront ⟨x :: t, searched⟩ = (some x, h2) ∧
      h2.segments.Perm t ∧ h2.searched = searched := by
  match t with
  | [] => exact ⟨⟨[], searched⟩, rfl, List.Perm.refl _, rfl⟩
  | y :: rest =>
    refine ⟨_, rfl, ?_, rfl⟩
    have hlast : (x :: y :: rest).getD ((x :: y :: rest).length - 1) dseg =
        (y :: rest).getLast (by simp) := by
      have hl : (x :: y :: rest).length - 1 < (x :: y :: rest).length := by simp
      rw [List.getD_eq_getElem?_getD, List.getElem?_eq_getElem hl, Option.getD_some]
      have hidx : (x :: y :: rest).length - 1 = (y :: rest).length - 1 + 1 := by simp
      rw [List.getLast_eq_getElem]
      simp only [hidx, List.getElem_cons_succ]
    set last := (x :: y :: rest).getD ((x :: y :: rest).length - 1) dseg with hlastdef
    have hset : (x :: y :: rest).set 0 last = last :: y :: rest := by simp
    have hdrop : (last :: y :: rest).dropLast = last :: (y :: rest).dropLast := by
      simp [List.dropLast_cons₂]
    have hperm1 : (last :: (y :: rest).dropLast).Perm (y :: rest) := by
      have hcat : (y :: rest).dropLast ++ [(y :: rest).getLast (by simp)] = y :: rest :=
        List.dropLast_concat_getLast (by simp)
      have step1 : (last :: (y :: rest).dropLast).Perm ((y :: rest).dropLast ++ [last]) :=
        (List.perm_append_singleton _ _).symm
      rw [hlast] at step1 ⊢
      rw [hcat] at step1
      exact step1
    simp only [hset, hdrop]
    have hlen : 0 < (last :: (y :: rest).dropLast).length := by simp
    exact (siftDown_perm _ 0 hlen).trans hperm1

end SegmentHeap

/-! ## Soundness of the Diff search: the returned script accounts for
every position of both inputs -/

@[simp] theorem weight_root (w a b : Nat) : (EditSegment.root w a b).weight = w := rfl

@[simp] theorem weight_child (w a b : Nat) (p : EditSegment) :
    (EditSegment.child w a b p).weight = w := rfl

@[simp] theorem aidx_root (w a b : Nat) : (EditSegment.root w a b).aidx = a := rfl

@[simp] theorem aidx_child (w a b : Nat) (p : EditSegment) :
    (EditSegment.child w a b p).aidx = a := rfl

@[simp] theorem bidx_root (w a b : Nat) : (EditSegment.root w a b).bidx = b := rfl

@[simp] theorem bidx_child (w a b : Nat) (p : EditSegment) :
    (EditSegment.child w a b p).bidx = b := rfl

theorem Chain.aidx_le {A B : List Nat} {seg : EditSegment} (h : Chain A B seg) :
    seg.aidx ≤ A.length ∧ seg.bidx ≤ B.length := by
  induction h with
  | root => simp
  | keep _ ha hb _ => simp; omega
  | del _ ha ih => simp at ih ⊢; omega
  | ins _ hb ih => simp at ih ⊢; omega

theorem addIf_chain {A B : List Nat} (hp : SegmentHeap) (c : Prop) [Decidable c]
    (seg : EditSegment) (hall : ∀ x ∈ hp.segments, Chain A B x)
    (hc : c → Chain A B seg) :
    ∀ x ∈ (hp.addIf c seg).segments, Chain A B x := by
  intro x hx
  unfold SegmentHeap.addIf at hx
  split at hx
  · cases SegmentHeap.Add_cases hp seg with
    | inl h1 =>
      rw [h1.2] at hx
      exact hall x hx
    | inr h1 =>
      have hmem : x ∈ seg :: hp.segments := (h1.2.1.mem_iff).mp hx
      cases List.mem_cons.mp hmem with
      | inl hxe =>
        subst hxe
        exact hc (by assumption)
      | inr hmem2 => exact hall x hmem2
  · exact hall x hx

theorem addNeighbors_chain {A B : List Nat} (heap : SegmentHeap) (seg : EditSegment)
    (hall : ∀ x ∈ heap.segments, Chain A B x) (hseg : Chain A B seg) :
    ∀ x ∈ (addNeighbors A B heap seg).segments, Chain A B x := by
  unfold addNeighbors
  have hbounds := hseg.aidx_le
  apply addIf_chain
  · apply addIf_chain
    · apply addIf_chain
      · exact hall
      · intro hg
        exact Chain.keep hseg (by omega) (by omega) hg.2.2
    · intro hg
      exact Chain.del hseg (by omega)
  · intro hg
    exact Chain.ins hseg (by omega)

theorem diffLoop_sound (A B : List Nat) :
    ∀ (fuel : Nat) (heap : SegmentHeap) (seg res : EditSegment),
    (∀ x ∈ heap.segments, Chain A B x) → Chain A B seg →
    diffLoop A B fuel heap seg = some res →
    Chain A B res ∧ res.aidx = A.length ∧ res.bidx = B.length := by
  intro fuel
  induction fuel with
  | zero =>
    intro heap seg res _ _ hrun
    simp [diffLoop] at hrun
  | succ fuel ih =>
    intro heap seg res hheap hseg hrun
    rw [diffLoop] at hrun
    by_cases hterm : seg.aidx = A.length ∧ seg.bidx = B.length
    · rw [if_pos hterm] at hrun
      cases hrun
      exact ⟨hseg, hterm⟩
    · rw [if_neg hterm] at hrun
      have hadd := addNeighbors_chain heap seg hheap hseg
      cases hsegs : (addNeighbors A B heap seg).segments with
      | nil =>
        rw [SegmentHeap.PopFront_nil _ hsegs] at hrun
        simp at hrun
      | cons x t =>
        obtain ⟨h2, heqpop, hperm, hsearch⟩ :=
          SegmentHeap.PopFront_cons x t (addNeighbors A B heap seg).searched
        have hpop2 : (addNeighbors A B heap seg).PopFront = (some x, h2) := by
          have hrepr : addNeighbors A B heap seg =
              ⟨x :: t, (addNeighbors A B heap seg).searched⟩ := by
            cases hh : addNeighbors A B heap seg
            rw [hh] at hsegs
            simp only at hsegs
            simp [hsegs]
          rw [hrepr]
          exact heqpop
        rw [hpop2] at hrun
        apply ih h2 x res
        · intro z hz
          exact hadd z (by rw [hsegs]; exact List.mem_cons_of_mem _ (hperm.mem_iff.mp hz))
        · exact hadd x (by rw [hsegs]; exact List.mem_cons_self _ _)
        · exact hrun

theorem drop_cons_getD (l : List Nat) (n : Nat) (h : n < l.length) :
    l.drop n = l.getD n 0 :: l.drop (n + 1) := by
  rw [List.getD_eq_getElem?_getD, List.getElem?_eq_getElem h, Option.getD_some]
  exact List.drop_eq_getElem_cons h

theorem acc_flush {cur : Edit} {edits : List Edit} {a b : List Nat}
    (hacc : AccRuns (cur :: edits) a b) :
    AccRuns (if cur.editType ≠ .nil then cur :: edits else edits) a b := by
  by_cases h : cur.editType = .nil
  · obtain ⟨ct, t⟩ := cur
    simp only at h
    subst h
    simp only [ne_eq, not_true_eq_false, if_false]
    cases hacc with
    | nilRun h2 => exact h2
  · simp only [ne_eq, h, not_false_eq_true, if_true]
    exact hacc

theorem AccRuns.keep_inv {t : List Nat} {es : List Edit} {a b : List Nat}
    (h : AccRuns (⟨.keep, t⟩ :: es) a b) :
    ∃ a0 b0, a = t ++ a0 ∧ b = t ++ b0 ∧ AccRuns es a0 b0 := by
  cases h with
  | keep t h2 => exact ⟨_, _, rfl, rfl, h2⟩

theorem AccRuns.add_inv {t : List Nat} {es : List Edit} {a b : List Nat}
    (h : AccRuns (⟨.add, t⟩ :: es) a b) :
    ∃ b0, b = t ++ b0 ∧ AccRuns es a b0 := by
  cases h with
  | add t h2 => exact ⟨_, rfl, h2⟩

theorem AccRuns.del_inv {t : List Nat} {es : List Edit} {a b : List Nat}
    (h : AccRuns (⟨.del, t⟩ :: es) a b) :
    ∃ a0, a = t ++ a0 ∧ AccRuns es a0 b := by
  cases h with
  | del t h2 => exact ⟨_, rfl, h2⟩

theorem reconstruct_acc (A B : List Nat) :
    ∀ (seg : EditSegment), Chain A B seg → ∀ (cur : Edit) (edits : List Edit),
    AccRuns (cur :: edits) (A.drop seg.aidx) (B.drop seg.bidx) →
    AccRuns (reconstructLoop A B seg cur edits) A B := by
  intro seg
  induction seg with
  | root w a b =>
    intro hc cur edits hacc
    cases hc
    simpa [reconstructLoop] using hacc
  | child w a b prev ih =>
    intro hc cur edits hacc
    cases hc with
    | keep hp ha hb heq =>
      simp only [aidx_child, bidx_child] at hacc
      have hAB : prev.aidx ≠ prev.aidx + 1 ∧ prev.bidx ≠ prev.bidx + 1 :=
        ⟨by omega, by omega⟩
      rw [reconstructLoop]
      simp only [if_pos hAB]
      have hdropA : A.drop prev.aidx = A.getD prev.aidx 0 :: A.drop (prev.aidx + 1) :=
        drop_cons_getD A prev.aidx ha
      have hdropB : B.drop prev.bidx = A.getD prev.aidx 0 :: B.drop (prev.bidx + 1) := by
        rw [heq]
        exact drop_cons_getD B prev.bidx hb
      by_cases hcur : cur.editType = EditType.keep
      · obtain ⟨ct, t⟩ := cur
        simp only at hcur
        subst hcur
        simp only [ne_eq, not_true_eq_false, if_false]
        obtain ⟨a0, b0, hA, hB, hrest⟩ := AccRuns.keep_inv hacc
        apply ih hp
        rw [hdropA, hdropB, hA, hB]
        exact AccRuns.keep (A.getD prev.aidx 0 :: t) hrest
      · rw [if_pos hcur]
        apply ih hp
        rw [hdropA, hdropB]
        exact AccRuns.keep [A.getD prev.aidx 0] (acc_flush hacc)
    | del hp ha =>
      simp only [aidx_child, bidx_child] at hacc
      have hAB : ¬(prev.aidx ≠ prev.aidx + 1 ∧ prev.bidx ≠ prev.bidx) := by simp
      have hA2 : prev.aidx ≠ prev.aidx + 1 := by omega
      rw [reconstructLoop]
      simp only [if_neg hAB, if_pos hA2]
      have hdropA : A.drop prev.aidx = A.getD prev.aidx 0 :: A.drop (prev.aidx + 1) :=
        drop_cons_getD A prev.aidx ha
      by_cases hcur : cur.editType = EditType.del
      · obtain ⟨ct, t⟩ := cur
        simp only at hcur
        subst hcur
        simp only [ne_eq, not_true_eq_false, if_false]
        obtain ⟨a0, hA, hrest⟩ := AccRuns.del_inv hacc
        apply ih hp
        rw [hdropA, hA]
        exact AccRuns.del (A.getD prev.aidx 0 :: t) hrest
      · rw [if_pos hcur]
        apply ih hp
        rw [hdropA]
        exact AccRuns.del [A.getD prev.aidx 0] (acc_flush hacc)
    | ins hp hb =>
      simp only [aidx_child, bidx_child] at hacc
      have hAB : ¬(prev.aidx ≠ prev.aidx ∧ prev.bidx ≠ prev.bidx + 1) := by simp
      have hA2 : ¬(prev.aidx ≠ prev.aidx) := by simp
      have hB2 : prev.bidx ≠ prev.bidx + 1 := by omega
      rw [reconstructLoop]
      simp only [if_neg hAB, if_neg hA2, if_pos hB2]
      have hdropB : B.drop prev.bidx = B.getD prev.bidx 0 :: B.drop (prev.bidx + 1) :=
        drop_cons_getD B prev.bidx hb
      by_cases hcur : cur.editType = EditType.add
      · obtain ⟨ct, t⟩ := cur
        simp only at hcur
        subst hcur
        simp only [ne_eq, not_true_eq_false, if_false]
        obtain ⟨b0, hB, hrest⟩ := AccRuns.add_inv hacc
        apply ih hp
        rw [hdropB, hB]
        exact AccRuns.add (B.getD prev.bidx 0 :: t) hrest
      · rw [if_pos hcur]
        apply ih hp
        rw [hdropB]
        exact AccRuns.add [B.getD prev.bidx 0] (acc_flush hacc)

/-! ## Termination of the Diff search: the fuel always suffices -/

theorem searched_length_le (l : List (Nat × Nat)) (al bl : Nat) (hn : l.Nodup)
    (hg : ∀ c ∈ l, c.1 ≤ al ∧ c.2 ≤ bl) : l.length ≤ (al + 1) * (bl + 1) := by
  have hsub : l.toFinset ⊆ Finset.range (al + 1) ×ˢ Finset.range (bl + 1) := by
    intro c hc
    rw [List.mem_toFinset] at hc
    rcases hg c hc with ⟨h1, h2⟩
    simp only [Finset.mem_product, Finset.mem_range]
    omega
  have hcard := Finset.card_le_card hsub
  rw [List.toFinset_card_of_nodup hn] at hcard
  simpa [Finset.card_range] using hcard

theorem TInv.add {A B : List Nat} {heap : SegmentHeap} {seg : EditSegment}
    {done : Nat × Nat → Prop} (inv : TInv A B heap seg done)
    (c : EditSegment) (hca : c.aidx ≤ A.length) (hcb : c.bidx ≤ B.length) :
    TInv A B (heap.Add c) seg done ∧ phiAB A B (heap.Add c) ≤ phiAB A B heap := by
  cases SegmentHeap.Add_cases heap c with
  | inl h1 =>
    rw [h1.2]
    exact ⟨inv, le_refl _⟩
  | inr h1 =>
    obtain ⟨hnotmem, hperm, hsearch⟩ := h1
    have hlen : (heap.Add c).segments.length = heap.segments.length + 1 := by
      rw [hperm.length_eq]
      simp
    have hsearchlen : (heap.Add c).searched.length = heap.searched.length + 1 := by
      rw [hsearch]
      simp
    have hnodup : (heap.Add c).searched.Nodup := by
      rw [hsearch]
      exact List.nodup_cons.mpr ⟨hnotmem, inv.nodup⟩
    have hgrid : ∀ d ∈ (heap.Add c).searched, d.1 ≤ A.length ∧ d.2 ≤ B.length := by
      intro d hd
      rw [hsearch] at hd
      cases List.mem_cons.mp hd with
      | inl h =>
        subst h
        exact ⟨hca, hcb⟩
      | inr h => exact inv.grid d h
    refine ⟨⟨hnodup, hgrid, ?_, ?_, ?_, ?_, ?_⟩, ?_⟩
    · rw [hsearch]
      exact List.mem_cons_of_mem _ inv.origin
    · intro x hx
      have hx2 : x ∈ c :: heap.segments := hperm.mem_iff.mp hx
      rw [hsearch]
      cases List.mem_cons.mp hx2 with
      | inl h =>
        subst h
        exact List.mem_cons_self _ _
      | inr h => exact List.mem_cons_of_mem _ (inv.segsSearched x h)
    · rw [hsearch]
      exact List.mem_cons_of_mem _ inv.curSearched
    · intro d hd
      rw [hsearch] at hd
      cases List.mem_cons.mp hd with
      | inl h =>
        subst h
        left
        have hcm : c ∈ (heap.Add c).segments := hperm.mem_iff.mpr (List.mem_cons_self _ _)
        exact List.mem_map.mpr ⟨c, hcm, rfl⟩
      | inr h =>
        cases inv.cover d h with
        | inl h2 =>
          left
          obtain ⟨x, hx, hxe⟩ := List.mem_map.mp h2
          exact List.mem_map.mpr ⟨x, hperm.mem_iff.mpr (List.mem_cons_of_mem _ hx), hxe⟩
        | inr h2 =>
          right
          exact h2
    · intro d hd
      obtain ⟨hd1, hd2, hd3, hd4⟩ := inv.doneClosed d hd
      rw [hsearch]
      exact ⟨List.mem_cons_of_mem _ hd1, hd2,
        fun h => List.mem_cons_of_mem _ (hd3 h), fun h => List.mem_cons_of_mem _ (hd4 h)⟩
    · have hbound := searched_length_le (heap.Add c).searched A.length B.length hnodup hgrid
      unfold phiAB
      rw [hlen, hsearchlen]
      rw [hsearchlen] at hbound
      omega

theorem TInv.addIf {A B : List Nat} {heap : SegmentHeap} {seg : EditSegment}
    {done : Nat × Nat → Prop} (inv : TInv A B heap seg done)
    (cond : Prop) [Decidable cond] (c : EditSegment)
    (hca : cond → c.aidx ≤ A.length) (hcb : cond → c.bidx ≤ B.length) :
    TInv A B (heap.addIf cond c) seg done ∧
      phiAB A B (heap.addIf cond c) ≤ phiAB A B heap ∧
      ∀ d ∈ heap.searched, d ∈ (heap.addIf cond c).searched := by
  unfold SegmentHeap.addIf
  split
  · rename_i h
    obtain ⟨t1, t2⟩ := inv.add c (hca h) (hcb h)
    exact ⟨t1, t2, SegmentHeap.Add_searched_mono heap c⟩
  · exact ⟨inv, le_refl _, fun d hd => hd⟩

theorem addIf_searched_mem (h : SegmentHeap) (cond : Prop) [Decidable cond]
    (c : EditSegment) (hc : cond) :
    (c.aidx, c.bidx) ∈ (h.addIf cond c).searched := by
  unfold SegmentHeap.addIf
  rw [if_pos hc]
  exact SegmentHeap.Add_searched_mem h c

theorem addNeighbors_tinv {A B : List Nat} {heap : SegmentHeap} {seg : EditSegment}
    {done : Nat × Nat → Prop} (inv : TInv A B heap seg done) :
    TInv A B (addNeighbors A B heap seg) seg done ∧
    phiAB A B (addNeighbors A B heap seg) ≤ phiAB A B heap ∧
    (seg.aidx < A.length → (seg.aidx + 1, seg.bidx) ∈ (addNeighbors A B heap seg).searched) ∧
    (seg.bidx < B.length → (seg.aidx, seg.bidx + 1) ∈ (addNeighbors A B heap seg).searched) := by
  have hbound := inv.grid _ inv.curSearched
  simp only at hbound
  obtain ⟨inv1, hphi1, hmono1⟩ := inv.addIf
    (seg.aidx ≠ A.length ∧ seg.bidx ≠ B.length ∧
      A.getD seg.aidx 0 = B.getD seg.bidx 0)
    (.child seg.weight (seg.aidx + 1) (seg.bidx + 1) seg)
    (fun hg => by simp; omega) (fun hg => by simp; omega)
  obtain ⟨inv2, hphi2, hmono2⟩ := inv1.addIf
    (seg.aidx ≠ A.length)
    (.child (seg.weight + 1) (seg.aidx + 1) seg.bidx seg)
    (fun hg => by simp; omega) (fun hg => by simp; omega)
  obtain ⟨inv3, hphi3, hmono3⟩ := inv2.addIf
    (seg.bidx ≠ B.length)
    (.child (seg.weight + 1) seg.aidx (seg.bidx + 1) seg)
    (fun hg => by simp; omega) (fun hg => by simp; omega)
  refine ⟨inv3, le_trans hphi3 (le_trans hphi2 hphi1), ?_, ?_⟩
  · intro hlt
    have hmem := addIf_searched_mem
      (heap.addIf
        (seg.aidx ≠ A.length ∧ seg.bidx ≠ B.length ∧
          A.getD seg.aidx 0 = B.getD seg.bidx 0)
        (.child seg.weight (seg.aidx + 1) (seg.bidx + 1) seg))
      (seg.aidx ≠ A.length)
      (.child (seg.weight + 1) (seg.aidx + 1) seg.bidx seg) (by omega)
    simp only [aidx_child, bidx_child] at hmem
    unfold addNeighbors
    exact hmono3 _ hmem
  · intro hlt
    have hmem := addIf_searched_mem
      ((heap.addIf
        (seg.aidx ≠ A.length ∧ seg.bidx ≠ B.length ∧
          A.getD seg.aidx 0 = B.getD seg.bidx 0)
        (.child seg.weight (seg.aidx + 1) (seg.bidx + 1) seg)).addIf
        (seg.aidx ≠ A.length) (.child (seg.weight + 1) (seg.aidx + 1) seg.bidx seg))
      (seg.bidx ≠ B.length)
      (.child (seg.weight + 1) seg.aidx (seg.bidx + 1) seg) (by omega)
    simp only [aidx_child, bidx_child] at hmem
    unfold addNeighbors
    exact hmem

theorem staircase (al bl : Nat) (D : Nat × Nat → Prop) (h0 : D (0, 0))
    (hstep1 : ∀ i j, D (i, j) → i < al → D (i + 1, j))
    (hstep2 : ∀ j, D (al, j) → j < bl → D (al, j + 1)) : D (al, bl) := by
  have h1 : ∀ i, i ≤ al → D (i, 0) := by
    intro i
    induction i with
    | zero => intro _; exact h0
    | succ n ih =>
      intro hle
      exact hstep1 n 0 (ih (by omega)) (by omega)
  have h2 : ∀ j, j ≤ bl → D (al, j) := by
    intro j
    induction j with
    | zero => intro _; exact h1 al le_rfl
    | succ n ih =>
      intro hle
      exact hstep2 n (ih (by omega)) (by omega)
  exact h2 bl le_rfl

theorem diffLoop_total (A B : List Nat) :
    ∀ (fuel : Nat) (heap : SegmentHeap) (seg : EditSegment) (done : Nat × Nat → Prop),
    TInv A B heap seg done → phiAB A B heap < fuel →
    ∃ res, diffLoop A B fuel heap seg = some res := by
  intro fuel
  induction fuel with
  | zero =>
    intro heap seg done inv h
    omega
  | succ fuel ih =>
    intro heap seg done inv hphi
    rw [diffLoop]
    by_cases hterm : seg.aidx = A.length ∧ seg.bidx = B.length
    · rw [if_pos hterm]
      exact ⟨seg, rfl⟩
    · rw [if_neg hterm]
      obtain ⟨inv3, hphi3, hch1, hch2⟩ := addNeighbors_tinv inv
      cases hsegs : (addNeighbors A B heap seg).segments with
      | nil =>
        exfalso
        have hcov : ∀ c ∈ (addNeighbors A B heap seg).searched,
            done c ∨ c = (seg.aidx, seg.bidx) := by
          intro c hc
          rcases inv3.cover c hc with h | h | h
          · rw [hsegs] at h
            simp [segCoords] at h
          · exact Or.inl h
          · exact Or.inr h
        have hD : ∀ c ∈ (addNeighbors A B heap seg).searched,
            c ≠ (A.length, B.length) ∧
            (c.1 < A.length → (c.1 + 1, c.2) ∈ (addNeighbors A B heap seg).searched) ∧
            (c.2 < B.length → (c.1, c.2 + 1) ∈ (addNeighbors A B heap seg).searched) := by
          intro c hc
          rcases hcov c hc with h | h
          · obtain ⟨_, hx2, hx3, hx4⟩ := inv3.doneClosed c h
            exact ⟨hx2, hx3, hx4⟩
          · subst h
            refine ⟨?_, fun hlt => hch1 hlt, fun hlt => hch2 hlt⟩
            intro heq
            apply hterm
            exact ⟨congrArg Prod.fst heq, congrArg Prod.snd heq⟩
        have hterm_in : (A.length, B.length) ∈ (addNeighbors A B heap seg).searched := by
          apply staircase A.length B.length
            (fun c => c ∈ (addNeighbors A B heap seg).searched) inv3.origin
          · intro i j hmem hlt
            exact (hD _ hmem).2.1 hlt
          · intro j hmem hlt
            exact (hD _ hmem).2.2 hlt
        exact (hD _ hterm_in).1 rfl
      | cons x t =>
        obtain ⟨h2, heqpop, hperm, hsearch⟩ :=
          SegmentHeap.PopFront_cons x t (addNeighbors A B heap seg).searched
        have hpop2 : (addNeighbors A B heap seg).PopFront = (some x, h2) := by
          have hrepr : addNeighbors A B heap seg =
              ⟨x :: t, (addNeighbors A B heap seg).searched⟩ := by
            cases hh : addNeighbors A B heap seg
            rw [hh] at hsegs
            simp only at hsegs
            simp [hsegs]
          rw [hrepr]
          exact heqpop
        rw [hpop2]
        have hx_mem : x ∈ (addNeighbors A B heap seg).segments := by
          rw [hsegs]
          exact List.mem_cons_self _ _
        have hinv4 : TInv A B h2 x (fun c => done c ∨ c = (seg.aidx, seg.bidx)) := by
          refine ⟨?_, ?_, ?_, ?_, ?_, ?_, ?_⟩
          · rw [hsearch]
            exact inv3.nodup
          · rw [hsearch]
            exact inv3.grid
          · rw [hsearch]
            exact inv3.origin
          · intro z hz
            rw [hsearch]
            apply inv3.segsSearched
            rw [hsegs]
            exact List.mem_cons_of_mem _ (hperm.mem_iff.mp hz)
          · rw [hsearch]
            exact inv3.segsSearched x hx_mem
          · intro c hc
            rw [hsearch] at hc
            rcases inv3.cover c hc with h | h | h
            · rw [hsegs] at h
              obtain ⟨z, hz, hze⟩ := List.mem_map.mp h
              cases List.mem_cons.mp hz with
              | inl hzx =>
                subst hzx
                right
                right
                exact hze.symm
              | inr hzt =>
                left
                exact List.mem_map.mpr ⟨z, hperm.mem_iff.mpr hzt, hze⟩
            · right
              left
              exact Or.inl h
            · right
              left
              exact Or.inr h
          · intro c hdc
            rw [hsearch]
            cases hdc with
            | inl h => exact inv3.doneClosed c h
            | inr h =>
              subst h
              refine ⟨inv3.curSearched, ?_, hch1, hch2⟩
              intro heq
              apply hterm
              exact ⟨congrArg Prod.fst heq, congrArg Prod.snd heq⟩
        have hphi4 : phiAB A B h2 < fuel := by
          have hlen2 : h2.segments.length = t.length := hperm.length_eq
          have hlen3 : (addNeighbors A B heap seg).segments.length = t.length + 1 := by
            rw [hsegs]
            simp
          unfold phiAB at hphi3 hphi ⊢
          rw [hlen2, hsearch]
          rw [hlen3] at hphi3
          omega
        exact ih h2 x _ hinv4 hphi4

/-- Every call to `Diff` terminates (the fuel suffices, the pop never
returns nil), and the returned script accounts for every position of
both inputs exactly once. -/
theorem Diff_some_acc (A B : List Nat) :
    ∃ es, Diff A B = some es ∧ AccRuns es A B := by
  have hinit : Diff A B =
      match diffLoop A B (diffFuel A B) ⟨[], [(0, 0)]⟩ (.root 0 0 0) with
      | none => none
      | some terminal => some (reconstructLoop A B terminal ⟨.nil, []⟩ []) := rfl
  have hinv : TInv A B ⟨[], [(0, 0)]⟩ (.root 0 0 0) (fun _ => False) := by
    refine ⟨?_, ?_, ?_, ?_, ?_, ?_, ?_⟩
    · simp
    · intro c hc
      simp at hc
      subst hc
      simp
    · simp
    · intro x hx
      simp at hx
    · simp
    · intro c hc
      simp at hc
      subst hc
      right
      right
      simp
    · intro c hc
      exact absurd hc (by simp)
  have hphi : phiAB A B ⟨[], [(0, 0)]⟩ < diffFuel A B := by
    unfold phiAB diffFuel
    have hpos : 1 ≤ (A.length + 1) * (B.length + 1) :=
      Nat.mul_pos (by omega) (by omega)
    simp only [List.length_nil, List.length_cons]
    omega
  obtain ⟨res, hres⟩ := diffLoop_total A B (diffFuel A B) _ _ _ hinv hphi
  obtain ⟨hchain, hA, hB⟩ := diffLoop_sound A B (diffFuel A B) _ _ res
    (by intro x hx; simp at hx) Chain.root hres
  refine ⟨reconstructLoop A B res ⟨.nil, []⟩ [], ?_, ?_⟩
  · rw [hinit, hres]
  · apply reconstruct_acc A B res hchain
    rw [hA, hB, List.drop_length, List.drop_length]
    exact AccRuns.nilRun AccRuns.nil

/-! ## UTF-16 encode/decode are the identity on BMP texts -/

theorem isSurr_eq_false_of_bmp {u : Nat} (h : isBMP u) : isSurr u = false := by
  unfold isSurr isBMP at *
  simp only [decide_eq_false_iff_not]
  omega

theorem isHighSurr_eq_false_of_bmp {u : Nat} (h : isBMP u) : isHighSurr u = false := by
  unfold isHighSurr isBMP at *
  simp only [decide_eq_false_iff_not]
  omega

theorem encodeRune_bmp {r : Nat} (h : isBMP r) : encodeRune r = [r] := by
  unfold encodeRune isBMP at *
  rw [if_pos h]

theorem utf16Encode_bmp {l : List Nat} (h : ∀ u ∈ l, isBMP u) : utf16Encode l = l := by
  induction l with
  | nil => rfl
  | cons x t ih =>
    unfold utf16Encode at *
    simp only [List.flatMap_cons]
    rw [encodeRune_bmp (h x (List.mem_cons_self _ _)),
      ih (fun u hu => h u (List.mem_cons_of_mem _ hu))]
    rfl

theorem utf16Decode_bmp (l : List Nat) (hl : ∀ u ∈ l, isBMP u) : utf16Decode l = l := by
  have H : ∀ (n : Nat) (l : List Nat), l.length ≤ n → (∀ u ∈ l, isBMP u) →
      utf16Decode l = l := by
    intro n
    induction n with
    | zero =>
      intro l hlen _
      have hnil : l = [] := List.eq_nil_of_length_eq_zero (by omega)
      subst hnil
      rfl
    | succ n ih =>
      intro l hlen h
      match l with
      | [] => rfl
      | [u] =>
        simp only [utf16Decode, isSurr_eq_false_of_bmp (h u (by simp)), Bool.false_eq_true,
          if_false]
      | u1 :: u2 :: rest =>
        have h1 : isHighSurr u1 = false := isHighSurr_eq_false_of_bmp (h u1 (by simp))
        have h2 : isSurr u1 = false := isSurr_eq_false_of_bmp (h u1 (by simp))
        simp only [utf16Decode, h1, Bool.false_eq_true, false_and, if_false, h2]
        rw [ih (u2 :: rest) (by simp at hlen ⊢; omega)
          (fun u hu => h u (List.mem_cons_of_mem _ hu))]
  exact H l.length l le_rfl hl

theorem bmp_append {l1 l2 : List Nat} (h1 : ∀ u ∈ l1, isBMP u) (h2 : ∀ u ∈ l2, isBMP u) :
    ∀ u ∈ l1 ++ l2, isBMP u := by
  intro u hu
  cases List.mem_append.mp hu with
  | inl h => exact h1 u h
  | inr h => exact h2 u h

/-! ## The encoded batch applied with the store's rules reproduces the
new text (on surrogate-free texts) -/

theorem insertAt_append_bmp (dn t a : List Nat) (hdn : ∀ u ∈ dn, isBMP u)
    (ht : ∀ u ∈ t, isBMP u) (ha : ∀ u ∈ a, isBMP u) :
    insertAtUTF16Index (dn ++ a) dn.length t = dn ++ (t ++ a) := by
  have hda := bmp_append hdn ha
  simp only [insertAtUTF16Index]
  rw [utf16Encode_bmp hda]
  rw [if_neg (by simp only [List.length_append]; omega)]
  rw [utf16Encode_bmp hda, utf16Encode_bmp ht]
  rw [List.take_left, List.drop_left]
  rw [utf16Decode_bmp _ (bmp_append (bmp_append hdn ht) ha)]
  rw [List.append_assoc]

theorem deleteBtwn_append_bmp (dn t a : List Nat) (hdn : ∀ u ∈ dn, isBMP u)
    (ht : ∀ u ∈ t, isBMP u) (ha : ∀ u ∈ a, isBMP u) :
    deleteBtwnUTF16Indices (dn ++ (t ++ a)) dn.length (dn.length + t.length) = dn ++ a := by
  by_cases ht0 : t = []
  · subst ht0
    simp only [deleteBtwnUTF16Indices]
    rw [if_pos (by simp)]
    simp
  · have htlen : 0 < t.length := List.length_pos.mpr ht0
    have hta := bmp_append ht ha
    have hall := bmp_append hdn hta
    simp only [deleteBtwnUTF16Indices]
    rw [if_neg (by omega)]
    rw [utf16Encode_bmp hall]
    rw [if_neg (by simp only [List.length_append]; omega)]
    rw [if_neg (by simp only [List.length_append]; omega)]
    rw [List.take_left]
    have hdrop : (dn ++ (t ++ a)).drop (dn.length + t.length) = a := by
      rw [← List.append_assoc]
      have hlen2 : dn.length + t.length = (dn ++ t).length := by simp
      rw [hlen2, List.drop_left]
    rw [hdrop]
    exact utf16Decode_bmp _ (bmp_append hdn ha)

theorem acc_apply {es : List Edit} {a b : List Nat} (hacc : AccRuns es a b) :
    ∀ (dn : List Nat), (∀ u ∈ dn, isBMP u) → (∀ u ∈ a, isBMP u) → (∀ u ∈ b, isBMP u) →
    applyLrcBatch (dn ++ a) (sendEditBatchLoop dn.length es) = dn ++ b := by
  induction hacc with
  | nil =>
    intro dn _ _ _
    simp [sendEditBatchLoop, applyLrcBatch]
  | @keep t es0 a0 b0 hrest ih =>
    intro dn hdn ha hb
    have ht : ∀ u ∈ t, isBMP u := fun u hu => ha u (List.mem_append.mpr (Or.inl hu))
    have ha0 : ∀ u ∈ a0, isBMP u := fun u hu => ha u (List.mem_append.mpr (Or.inr hu))
    have hb0 : ∀ u ∈ b0, isBMP u := fun u hu => hb u (List.mem_append.mpr (Or.inr hu))
    simp only [sendEditBatchLoop]
    have hih := ih (dn ++ t) (bmp_append hdn ht) ha0 hb0
    rw [List.length_append] at hih
    rw [List.append_assoc, List.append_assoc] at hih
    exact hih
  | @add t es0 a0 b0 hrest ih =>
    intro dn hdn ha hb
    have ht : ∀ u ∈ t, isBMP u := fun u hu => hb u (List.mem_append.mpr (Or.inl hu))
    have hb0 : ∀ u ∈ b0, isBMP u := fun u hu => hb u (List.mem_append.mpr (Or.inr hu))
    simp only [sendEditBatchLoop]
    unfold applyLrcBatch
    rw [List.foldl_cons]
    have hdec : utf16Decode t = t := utf16Decode_bmp t ht
    have hins : applyLrcEdit (dn ++ a0) (.insert dn.length (utf16Decode t)) =
        dn ++ (t ++ a0) := by
      unfold applyLrcEdit
      rw [hdec]
      exact insertAt_append_bmp dn t a0 hdn ht ha
    rw [hins]
    have hih := ih (dn ++ t) (bmp_append hdn ht) ha hb0
    rw [List.length_append] at hih
    rw [List.append_assoc, List.append_assoc] at hih
    exact hih
  | @del t es0 a0 b0 hrest ih =>
    intro dn hdn ha hb
    have ht : ∀ u ∈ t, isBMP u := fun u hu => ha u (List.mem_append.mpr (Or.inl hu))
    have ha0 : ∀ u ∈ a0, isBMP u := fun u hu => ha u (List.mem_append.mpr (Or.inr hu))
    simp only [sendEditBatchLoop]
    unfold applyLrcBatch
    rw [List.foldl_cons]
    have hdel : applyLrcEdit (dn ++ (t ++ a0)) (.delete dn.length (dn.length + t.length)) =
        dn ++ a0 := by
      unfold applyLrcEdit
      exact deleteBtwn_append_bmp dn t a0 hdn ht ha0
    rw [hdel]
    exact ih dn hdn ha0 hb
  | nilRun hrest ih =>
    intro dn hdn ha hb
    simp only [sendEditBatchLoop]
    exact ih dn hdn ha hb

/-- The round trip of claim C2, restricted to surrogate-free texts:
diff the old and new texts, encode the plan as a wire batch, apply it
with the store's own rules — the result is the new text. -/
theorem diff_batch_roundtrip (oldT newT : List Nat)
    (hold : ∀ u ∈ oldT, isBMP u) (hnew : ∀ u ∈ newT, isBMP u) :
    ∃ es, Diff (utf16Encode oldT) (utf16Encode newT) = some es ∧
      applyLrcBatch oldT (sendEditBatch es) = newT := by
  rw [utf16Encode_bmp hold, utf16Encode_bmp hnew]
  obtain ⟨es, hd, hacc⟩ := Diff_some_acc oldT newT
  refine ⟨es, hd, ?_⟩
  have happ := acc_apply hacc [] (by simp) hold hnew
  simpa [sendEditBatch] using happ

/-! ## The edge cases of Diff (claim C6): helper lemmas -/

@[simp] theorem diagChain_aidx (k : Nat) : (diagChain k).aidx = k := by
  cases k <;> rfl

@[simp] theorem diagChain_bidx (k : Nat) : (diagChain k).bidx = k := by
  cases k <;> rfl

@[simp] theorem diagChain_weight (k : Nat) : (diagChain k).weight = 0 := by
  cases k <;> rfl

@[simp] theorem insChain_aidx (k : Nat) : (insChain k).aidx = 0 := by
  cases k <;> rfl

@[simp] theorem insChain_bidx (k : Nat) : (insChain k).bidx = k := by
  cases k <;> rfl

@[simp] theorem insChain_weight (k : Nat) : (insChain k).weight = k := by
  cases k <;> rfl

@[simp] theorem delChain_aidx (k : Nat) : (delChain k).aidx = k := by
  cases k <;> rfl

@[simp] theorem delChain_bidx (k : Nat) : (delChain k).bidx = 0 := by
  cases k <;> rfl

@[simp] theorem delChain_weight (k : Nat) : (delChain k).weight = k := by
  cases k <;> rfl

theorem getD_set_self (l : List EditSegment) (i : Nat) (v : EditSegment)
    (h : i < l.length) : (l.set i v).getD i dseg = v := by
  rw [List.getD_eq_getElem?_getD, List.getElem?_set]
  simp [h]

theorem getD_set_ne (l : List EditSegment) (i j : Nat) (v : EditSegment)
    (h : i ≠ j) : (l.set i v).getD j dseg = l.getD j dseg := by
  rw [List.getD_eq_getElem?_getD, List.getElem?_set, if_neg h,
    ← List.getD_eq_getElem?_getD]

theorem getD_append_length (l : List EditSegment) (x : EditSegment) :
    (l ++ [x]).getD l.length dseg = x := by
  rw [List.getD_eq_getElem?_getD, List.getElem?_append_right (le_refl _)]
  simp

theorem getD_append_lt (l l2 : List EditSegment) (j : Nat) (h : j < l.length) :
    (l ++ l2).getD j dseg = l.getD j dseg := by
  rw [List.getD_eq_getElem?_getD, List.getElem?_append, if_pos h,
    ← List.getD_eq_getElem?_getD]

theorem getD_mem (l : List EditSegment) (j : Nat) (h : j < l.length) :
    l.getD j dseg ∈ l := by
  rw [List.getD_eq_getElem?_getD, List.getElem?_eq_getElem h, Option.getD_some]
  exact List.getElem_mem h

theorem exists_cons_of_head? {l : List EditSegment} {x : EditSegment}
    (h : l.head? = some x) : ∃ t, l = x :: t := by
  cases l with
  | nil => simp at h
  | cons y t =>
    simp only [List.head?_cons, Option.some.injEq] at h
    subst h
    exact ⟨t, rfl⟩

theorem head?_eq_getD (l : List EditSegment) (h : 0 < l.length) :
    l.head? = some (l.getD 0 dseg) := by
  cases l with
  | nil => simp at h
  | cons x t => rfl

theorem head?_set_ne (l : List EditSegment) (n : Nat) (v : EditSegment) (h : n ≠ 0) :
    (l.set n v).head? = l.head? := by
  cases l with
  | nil => rfl
  | cons x t =>
    cases n with
    | zero => exact absurd rfl h
    | succ m => rfl

theorem siftUpFuel_min_head : ∀ (fuel : Nat) (l : List EditSegment) (idx : Nat),
    idx < l.length → idx ≤ fuel →
    (∀ j, j < l.length → j ≠ idx → lighter (l.getD idx dseg) (l.getD j dseg) = true) →
    (siftUpFuel fuel l idx).head? = some (l.getD idx dseg) := by
  intro fuel
  induction fuel with
  | zero =>
    intro l idx hlt hle hall
    have h0 : idx = 0 := by omega
    subst h0
    exact head?_eq_getD l hlt
  | succ fuel ih =>
    intro l idx hlt hle hall
    rw [siftUpFuel]
    by_cases h0 : idx = 0
    · subst h0
      rw [if_pos rfl]
      exact head?_eq_getD l hlt
    · rw [if_neg h0]
      have hup_len : (idx - 1) / 2 < l.length := by omega
      have hlight : lighter (l.getD idx dseg) (l.getD ((idx - 1) / 2) dseg) = true :=
        hall _ hup_len (by omega)
      rw [if_pos hlight]
      have hne : (idx - 1) / 2 ≠ idx := by omega
      have hlen : ((l.set ((idx - 1) / 2) (l.getD idx dseg)).set idx
          (l.getD ((idx - 1) / 2) dseg)).length = l.length := by simp
      have hgetup : ((l.set ((idx - 1) / 2) (l.getD idx dseg)).set idx
          (l.getD ((idx - 1) / 2) dseg)).getD ((idx - 1) / 2) dseg = l.getD idx dseg := by
        rw [getD_set_ne _ _ _ _ (by omega), getD_set_self _ _ _ hup_len]
      rw [ih _ _ (by omega) (by omega) ?_]
      · rw [hgetup]
      · intro j hj hne2
        rw [hgetup]
        rw [hlen] at hj
        by_cases hji : j = idx
        · subst hji
          rw [getD_set_self _ _ _ (by simp; omega)]
          exact hlight
        · rw [getD_set_ne _ _ _ _ (Ne.symm hji), getD_set_ne _ _ _ _ (Ne.symm hne2)]
          exact hall j hj hji

theorem siftUpFuel_head_stable : ∀ (fuel : Nat) (l : List EditSegment) (idx : Nat),
    0 < idx → idx < l.length →
    lighter (l.getD idx dseg) (l.getD 0 dseg) = false →
    (siftUpFuel fuel l idx).head? = l.head? := by
  intro fuel
  induction fuel with
  | zero =>
    intro l idx _ _ _
    rfl
  | succ fuel ih =>
    intro l idx hpos hlt hstable
    rw [siftUpFuel]
    rw [if_neg (by omega)]
    by_cases hlight : lighter (l.getD idx dseg) (l.getD ((idx - 1) / 2) dseg) = true
    · rw [if_pos hlight]
      by_cases hup0 : (idx - 1) / 2 = 0
      · rw [hup0] at hlight
        rw [hlight] at hstable
        cases hstable
      · have hup_len : (idx - 1) / 2 < l.length := by omega
        have hgetup : ((l.set ((idx - 1) / 2) (l.getD idx dseg)).set idx
            (l.getD ((idx - 1) / 2) dseg)).getD ((idx - 1) / 2) dseg = l.getD idx dseg := by
          rw [getD_set_ne _ _ _ _ (by omega), getD_set_self _ _ _ hup_len]
        have hget0 : ((l.set ((idx - 1) / 2) (l.getD idx dseg)).set idx
            (l.getD ((idx - 1) / 2) dseg)).getD 0 dseg = l.getD 0 dseg := by
          rw [getD_set_ne _ _ _ _ (by omega), getD_set_ne _ _ _ _ (by omega)]
        rw [ih _ _ (by omega) (by simp; omega) (by rw [hgetup, hget0]; exact hstable)]
        rw [head?_set_ne _ _ _ (by omega), head?_set_ne _ _ _ hup0]
    · rw [if_neg hlight]

theorem Add_zero_weight (junk : List EditSegment) (searched : List (Nat × Nat))
    (c : EditSegment) (hw : ∀ x ∈ junk, x.weight = 1) (hwc : c.weight = 0)
    (hnot : (c.aidx, c.bidx) ∉ searched) :
    ∃ t, (SegmentHeap.Add ⟨junk, searched⟩ c).segments = c :: t ∧
      (∀ x ∈ t, x.weight = 1) ∧
      (SegmentHeap.Add ⟨junk, searched⟩ c).searched = (c.aidx, c.bidx) :: searched := by
  unfold SegmentHeap.Add
  rw [if_neg hnot]
  simp only
  have hidx : junk.length < (junk ++ [c]).length := by simp
  have hgetD : (junk ++ [c]).getD junk.length dseg = c := getD_append_length junk c
  have hhead : (siftUp (junk ++ [c]) junk.length).head? = some c := by
    unfold siftUp
    rw [siftUpFuel_min_head junk.length _ _ hidx le_rfl ?_]
    · rw [hgetD]
    · intro j hj hne
      rw [hgetD]
      have hj2 : j < junk.length := by
        simp only [List.length_append, List.length_cons, List.length_nil] at hj
        omega
      rw [getD_append_lt _ _ _ hj2]
      apply lighter_of_weight_lt
      rw [hwc, hw _ (getD_mem _ _ hj2)]
      omega
  obtain ⟨t, ht⟩ := exists_cons_of_head? hhead
  refine ⟨t, ht, ?_, by trivial⟩
  have hperm : (c :: t).Perm (junk ++ [c]) := ht ▸ siftUp_perm junk.length (junk ++ [c]) hidx
  have hperm2 : (c :: t).Perm (c :: junk) :=
    hperm.trans (List.perm_append_singleton c junk)
  have hperm3 : t.Perm junk := hperm2.cons_inv
  intro x hx
  exact hw x (hperm3.mem_iff.mp hx)

theorem Add_one_weight (hd : EditSegment) (t : List EditSegment)
    (searched : List (Nat × Nat)) (c : EditSegment)
    (hw : ∀ x ∈ t, x.weight = 1) (hwh : hd.weight = 0) (hwc : c.weight = 1)
    (hnot : (c.aidx, c.bidx) ∉ searched) :
    ∃ t2, (SegmentHeap.Add ⟨hd :: t, searched⟩ c).segments = hd :: t2 ∧
      (∀ x ∈ t2, x.weight = 1) ∧
      (SegmentHeap.Add ⟨hd :: t, searched⟩ c).searched = (c.aidx, c.bidx) :: searched := by
  unfold SegmentHeap.Add
  rw [if_neg hnot]
  simp only
  have hidx : (hd :: t).length < ((hd :: t) ++ [c]).length := by simp
  have hgetD : ((hd :: t) ++ [c]).getD (hd :: t).length dseg = c :=
    getD_append_length (hd :: t) c
  have hget0 : ((hd :: t) ++ [c]).getD 0 dseg = hd := by
    rw [getD_append_lt _ _ _ (by simp)]
    rfl
  have hhead : (siftUp ((hd :: t) ++ [c]) (hd :: t).length).head? =
      ((hd :: t) ++ [c]).head? := by
    unfold siftUp
    apply siftUpFuel_head_stable _ _ _ (by simp) hidx
    rw [hgetD, hget0]
    apply lighter_false_of_weight_gt
    omega
  have hhead2 : (siftUp ((hd :: t) ++ [c]) (hd :: t).length).head? = some hd := by
    rw [hhead]
    rfl
  obtain ⟨t2, ht2⟩ := exists_cons_of_head? hhead2
  refine ⟨t2, ht2, ?_, by trivial⟩
  have hperm : (hd :: t2).Perm ((hd :: t) ++ [c]) :=
    ht2 ▸ siftUp_perm (hd :: t).length ((hd :: t) ++ [c]) hidx
  have heq : (hd :: t) ++ [c] = hd :: (t ++ [c]) := rfl
  rw [heq] at hperm
  have hperm2 : t2.Perm (t ++ [c]) := hperm.cons_inv
  intro x hx
  cases List.mem_append.mp (hperm2.mem_iff.mp hx) with
  | inl h => exact hw x h
  | inr h =>
    rw [List.mem_singleton.mp h]
    exact hwc

theorem addNeighbors_diag (A : List Nat) (k : Nat) (junk : List EditSegment)
    (searched : List (Nat × Nat)) (hk : k < A.length)
    (hw : ∀ x ∈ junk, x.weight = 1)
    (hb : ∀ c ∈ searched, c.1 ≤ k ∧ c.2 ≤ k) :
    ∃ t3, (addNeighbors A A ⟨junk, searched⟩ (diagChain k)).segments =
        diagChain (k + 1) :: t3 ∧
      (∀ x ∈ t3, x.weight = 1) ∧
      (addNeighbors A A ⟨junk, searched⟩ (diagChain k)).searched =
        (k, k + 1) :: (k + 1, k) :: (k + 1, k + 1) :: searched := by
  unfold addNeighbors SegmentHeap.addIf
  simp only [diagChain_aidx, diagChain_bidx, diagChain_weight]
  have hg1 : k ≠ A.length ∧ k ≠ A.length ∧ True := ⟨by omega, by omega, trivial⟩
  have hg2 : k ≠ A.length := by omega
  rw [if_pos hg1, if_pos hg2, if_pos hg2]
  obtain ⟨t1, hseg1, hw1, hsear1⟩ := Add_zero_weight junk searched
    (.child 0 (k + 1) (k + 1) (diagChain k)) hw rfl
    (by
      intro hmem
      have hcb := hb _ hmem
      simp only [aidx_child, bidx_child] at hcb
      omega)
  simp only [aidx_child, bidx_child] at hsear1
  have hH1 : SegmentHeap.Add ⟨junk, searched⟩ (.child 0 (k + 1) (k + 1) (diagChain k)) =
      ⟨EditSegment.child 0 (k + 1) (k + 1) (diagChain k) :: t1, (k + 1, k + 1) :: searched⟩ := by
    cases hh : SegmentHeap.Add ⟨junk, searched⟩ (.child 0 (k + 1) (k + 1) (diagChain k))
    rw [hh] at hseg1 hsear1
    simp only at hseg1 hsear1
    rw [hseg1, hsear1]
  rw [hH1]
  obtain ⟨t2, hseg2, hw2, hsear2⟩ := Add_one_weight
    (EditSegment.child 0 (k + 1) (k + 1) (diagChain k)) t1 ((k + 1, k + 1) :: searched)
    (.child (0 + 1) (k + 1) k (diagChain k)) hw1 rfl rfl
    (by
      intro hmem
      simp only [aidx_child, bidx_child, List.mem_cons] at hmem
      cases hmem with
      | inl h =>
        have := Prod.mk.injEq .. ▸ h
        simp only [Prod.mk.injEq] at h
        omega
      | inr h =>
        have hcb := hb _ h
        simp only at hcb
        omega)
  simp only [aidx_child, bidx_child] at hsear2
  have hH2 : SegmentHeap.Add
      ⟨EditSegment.child 0 (k + 1) (k + 1) (diagChain k) :: t1, (k + 1, k + 1) :: searched⟩
      (.child (0 + 1) (k + 1) k (diagChain k)) =
      ⟨EditSegment.child 0 (k + 1) (k + 1) (diagChain k) :: t2,
        (k + 1, k) :: (k + 1, k + 1) :: searched⟩ := by
    cases hh : SegmentHeap.Add
      ⟨EditSegment.child 0 (k + 1) (k + 1) (diagChain k) :: t1, (k + 1, k + 1) :: searched⟩
      (.child (0 + 1) (k + 1) k (diagChain k))
    rw [hh] at hseg2 hsear2
    simp only at hseg2 hsear2
    rw [hseg2, hsear2]
  rw [hH2]
  obtain ⟨t3, hseg3, hw3, hsear3⟩ := Add_one_weight
    (EditSegment.child 0 (k + 1) (k + 1) (diagChain k)) t2
    ((k + 1, k) :: (k + 1, k + 1) :: searched)
    (.child (0 + 1) k (k + 1) (diagChain k)) hw2 rfl rfl
    (by
      intro hmem
      simp only [aidx_child, bidx_child, List.mem_cons] at hmem
      rcases hmem with h | h | h
      · simp only [Prod.mk.injEq] at h
        omega
      · simp only [Prod.mk.injEq] at h
        omega
      · have hcb := hb _ h
        omega)
  simp only [aidx_child, bidx_child] at hsear3
  exact ⟨t3, hseg3, hw3, hsear3⟩

theorem diffLoop_diag (A : List Nat) : ∀ (m k fuel : Nat) (junk : List EditSegment)
    (searched : List (Nat × Nat)), k + m = A.length → m < fuel →
    (∀ x ∈ junk, x.weight = 1) → (∀ c ∈ searched, c.1 ≤ k ∧ c.2 ≤ k) →
    diffLoop A A fuel ⟨junk, searched⟩ (diagChain k) = some (diagChain A.length) := by
  intro m
  induction m with
  | zero =>
    intro k fuel junk searched hkm hfuel hw hb
    obtain ⟨fuel, rfl⟩ : ∃ f, fuel = f + 1 := ⟨fuel - 1, by omega⟩
    rw [diffLoop]
    rw [if_pos (by simp; omega)]
    have hk : k = A.length := by omega
    rw [hk]
  | succ m ih =>
    intro k fuel junk searched hkm hfuel hw hb
    obtain ⟨fuel, rfl⟩ : ∃ f, fuel = f + 1 := ⟨fuel - 1, by omega⟩
    rw [diffLoop]
    rw [if_neg (by simp; omega)]
    obtain ⟨t3, hseg3, hw3, hsear3⟩ := addNeighbors_diag A k junk searched (by omega) hw hb
    have hH3 : addNeighbors A A ⟨junk, searched⟩ (diagChain k) =
        ⟨diagChain (k + 1) :: t3, (k, k + 1) :: (k + 1, k) :: (k + 1, k + 1) :: searched⟩ := by
      cases hh : addNeighbors A A ⟨junk, searched⟩ (diagChain k)
      rw [hh] at hseg3 hsear3
      simp only at hseg3 hsear3
      simp only [hseg3, hsear3]
    rw [hH3]
    obtain ⟨h2, heqpop, hperm, hsearch⟩ := SegmentHeap.PopFront_cons (diagChain (k + 1)) t3
      ((k, k + 1) :: (k + 1, k) :: (k + 1, k + 1) :: searched)
    rw [heqpop]
    have hrec : diffLoop A A fuel h2 (diagChain (k + 1)) = some (diagChain A.length) := by
      cases hh2 : h2 with
      | mk segs sear =>
        rw [hh2] at hperm hsearch
        simp only at hperm hsearch
        apply ih (k + 1) fuel segs sear (by omega) (by omega)
        · intro x hx
          exact hw3 x (hperm.mem_iff.mp hx)
        · rw [hsearch]
          intro c hc
          simp only [List.mem_cons] at hc
          rcases hc with h | h | h | h
          · subst h; constructor <;> simp
          · subst h; constructor <;> simp
          · subst h; constructor <;> simp
          · have hcb := hb c h; omega
    exact hrec

theorem reconstruct_diag (A : List Nat) : ∀ (k : Nat), k ≤ A.length →
    reconstructLoop A A (diagChain k) ⟨.keep, A.drop k⟩ [] = [⟨.keep, A⟩] := by
  intro k
  induction k with
  | zero =>
    intro _
    simp [diagChain, reconstructLoop]
  | succ k ih =>
    intro hk
    show reconstructLoop A A (.child 0 (k + 1) (k + 1) (diagChain k)) ⟨.keep, A.drop (k + 1)⟩ []
      = [⟨.keep, A⟩]
    rw [reconstructLoop]
    simp only [diagChain_aidx, diagChain_bidx]
    have hAB : k ≠ k + 1 ∧ k ≠ k + 1 := ⟨by omega, by omega⟩
    simp only [if_pos hAB]
    rw [if_neg (by simp)]
    rw [← drop_cons_getD A k (by omega)]
    exact ih (by omega)

theorem Diff_eq_self (A : List Nat) (hA : A ≠ []) : Diff A A = some [⟨.keep, A⟩] := by
  have hinit : Diff A A =
      match diffLoop A A (diffFuel A A) ⟨[], [(0, 0)]⟩ (.root 0 0 0) with
      | none => none
      | some terminal => some (reconstructLoop A A terminal ⟨.nil, []⟩ []) := rfl
  have hfuel : A.length < diffFuel A A := by
    unfold diffFuel
    have h1 : A.length + 1 ≤ (A.length + 1) * (A.length + 1) :=
      Nat.le_mul_of_pos_left _ (by omega)
    omega
  have hloop := diffLoop_diag A A.length 0 (diffFuel A A) [] [(0, 0)]
    (by omega) hfuel (by intro x hx; simp at hx)
    (by intro c hc; simp at hc; subst hc; simp)
  rw [hinit]
  have hd0 : diagChain 0 = EditSegment.root 0 0 0 := rfl
  rw [hd0] at hloop
  rw [hloop]
  obtain ⟨n, hn⟩ : ∃ n, A.length = n + 1 := by
    cases A with
    | nil => simp at hA
    | cons x t => exact ⟨t.length, by simp⟩
  rw [hn]
  show some (reconstructLoop A A (.child 0 (n + 1) (n + 1) (diagChain n)) ⟨.nil, []⟩ []) = _
  rw [reconstructLoop]
  simp only [diagChain_aidx, diagChain_bidx]
  have hAB : n ≠ n + 1 ∧ n ≠ n + 1 := ⟨by omega, by omega⟩
  simp only [if_pos hAB]
  rw [if_pos (by simp : (⟨EditType.nil, []⟩ : Edit).editType ≠ EditType.keep)]
  rw [if_neg (by simp : ¬(⟨EditType.nil, []⟩ : Edit).editType ≠ EditType.nil)]
  have hsing : [A.getD n 0] = A.drop n := by
    rw [drop_cons_getD A n (by omega)]
    have hdn : A.drop (n + 1) = [] := by
      rw [← hn]
      exact List.drop_length A
    rw [hdn]
  rw [hsing]
  rw [reconstruct_diag A n (by omega)]

theorem addNeighbors_ins (B : List Nat) (k : Nat) (searched : List (Nat × Nat))
    (hk : k < B.length) (hnot : (0, k + 1) ∉ searched) :
    addNeighbors [] B ⟨[], searched⟩ (insChain k) =
      ⟨[insChain (k + 1)], (0, k + 1) :: searched⟩ := by
  unfold addNeighbors SegmentHeap.addIf
  simp only [insChain_aidx, insChain_bidx, insChain_weight, List.length_nil]
  rw [if_pos (by omega : k ≠ B.length)]
  rw [if_neg (by simp : ¬¬(0 : Nat) = 0)]
  rw [if_neg (by simp)]
  unfold SegmentHeap.Add
  simp only [aidx_child, bidx_child]
  rw [if_neg hnot]
  rfl

theorem diffLoop_ins (B : List Nat) : ∀ (m k fuel : Nat) (searched : List (Nat × Nat)),
    k + m = B.length → m < fuel → (∀ j, k < j → (0, j) ∉ searched) →
    diffLoop [] B fuel ⟨[], searched⟩ (insChain k) = some (insChain B.length) := by
  intro m
  induction m with
  | zero =>
    intro k fuel searched hkm hfuel hns
    obtain ⟨fuel, rfl⟩ : ∃ f, fuel = f + 1 := ⟨fuel - 1, by omega⟩
    rw [diffLoop]
    rw [if_pos (by simp; omega)]
    have hk : k = B.length := by omega
    rw [hk]
  | succ m ih =>
    intro k fuel searched hkm hfuel hns
    obtain ⟨fuel, rfl⟩ : ∃ f, fuel = f + 1 := ⟨fuel - 1, by omega⟩
    rw [diffLoop]
    rw [if_neg (by simp; omega)]
    rw [addNeighbors_ins B k searched (by omega) (hns (k + 1) (by omega))]
    exact ih (k + 1) fuel ((0, k + 1) :: searched) (by omega) (by omega)
      (by
        intro j hj hmem
        rcases List.mem_cons.mp hmem with h | h
        · simp only [Prod.mk.injEq] at h
          omega
        · exact hns j (by omega) h)

theorem reconstruct_ins (B : List Nat) : ∀ (k : Nat), k ≤ B.length →
    reconstructLoop [] B (insChain k) ⟨.add, B.drop k⟩ [] = [⟨.add, B⟩] := by
  intro k
  induction k with
  | zero =>
    intro _
    simp [insChain, reconstructLoop]
  | succ k ih =>
    intro hk
    show reconstructLoop [] B (.child (k + 1) 0 (k + 1) (insChain k)) ⟨.add, B.drop (k + 1)⟩ []
      = [⟨.add, B⟩]
    rw [reconstructLoop]
    simp only [insChain_aidx, insChain_bidx]
    have hA : ¬(¬(0 : Nat) = 0 ∧ k ≠ k + 1) := by simp
    have hA2 : ¬¬(0 : Nat) = 0 := by simp
    have hB : k ≠ k + 1 := by omega
    simp only [if_neg hA, if_neg hA2, if_pos hB]
    rw [if_neg (by simp)]
    rw [← drop_cons_getD B k (by omega)]
    exact ih (by omega)

theorem Diff_empty_left (B : List Nat) (hB : B ≠ []) :
    Diff [] B = some [⟨.add, B⟩] := by
  have hinit : Diff [] B =
      match diffLoop [] B (diffFuel [] B) ⟨[], [(0, 0)]⟩ (.root 0 0 0) with
      | none => none
      | some terminal => some (reconstructLoop [] B terminal ⟨.nil, []⟩ []) := rfl
  have hfuel : B.length < diffFuel [] B := by
    unfold diffFuel
    simp only [List.length_nil]
    omega
  have hloop := diffLoop_ins B B.length 0 (diffFuel [] B) [(0, 0)]
    (by omega) hfuel
    (by
      intro j hj hmem
      simp only [List.mem_cons, List.not_mem_nil, or_false] at hmem
      simp only [Prod.mk.injEq] at hmem
      omega)
  rw [hinit]
  have hd0 : insChain 0 = EditSegment.root 0 0 0 := rfl
  rw [hd0] at hloop
  rw [hloop]
  obtain ⟨n, hn⟩ : ∃ n, B.length = n + 1 := by
    cases B with
    | nil => simp at hB
    | cons x t => exact ⟨t.length, by simp⟩
  rw [hn]
  show some (reconstructLoop [] B (.child (n + 1) 0 (n + 1) (insChain n)) ⟨.nil, []⟩ []) = _
  rw [reconstructLoop]
  simp only [insChain_aidx, insChain_bidx]
  have hA : ¬(¬(0 : Nat) = 0 ∧ n ≠ n + 1) := by simp
  have hA2 : ¬¬(0 : Nat) = 0 := by simp
  have hB2 : n ≠ n + 1 := by omega
  simp only [if_neg hA, if_neg hA2, if_pos hB2]
  rw [if_pos (by simp : (⟨EditType.nil, []⟩ : Edit).editType ≠ EditType.add)]
  rw [if_neg (by simp : ¬(⟨EditType.nil, []⟩ : Edit).editType ≠ EditType.nil)]
  have hsing : [B.getD n 0] = B.drop n := by
    rw [drop_cons_getD B n (by omega)]
    have hdn : B.drop (n + 1) = [] := by
      rw [← hn]
      exact List.drop_length B
    rw [hdn]
  rw [hsing]
  rw [reconstruct_ins B n (by omega)]

theorem addNeighbors_del (A : List Nat) (k : Nat) (searched : List (Nat × Nat))
    (hk : k < A.length) (hnot : (k + 1, 0) ∉ searched) :
    addNeighbors A [] ⟨[], searched⟩ (delChain k) =
      ⟨[delChain (k + 1)], (k + 1, 0) :: searched⟩ := by
  unfold addNeighbors SegmentHeap.addIf
  simp only [delChain_aidx, delChain_bidx, delChain_weight, List.length_nil]
  rw [if_neg (by simp)]
  rw [if_pos (by omega : k ≠ A.length)]
  rw [if_neg (by simp)]
  unfold SegmentHeap.Add
  simp only [aidx_child, bidx_child]
  rw [if_neg hnot]
  rfl

theorem diffLoop_del (A : List Nat) : ∀ (m k fuel : Nat) (searched : List (Nat × Nat)),
    k + m = A.length → m < fuel → (∀ j, k < j → (j, 0) ∉ searched) →
    diffLoop A [] fuel ⟨[], searched⟩ (delChain k) = some (delChain A.length) := by
  intro m
  induction m with
  | zero =>
    intro k fuel searched hkm hfuel hns
    obtain ⟨fuel, rfl⟩ : ∃ f, fuel = f + 1 := ⟨fuel - 1, by omega⟩
    rw [diffLoop]
    rw [if_pos (by simp; omega)]
    have hk : k = A.length := by omega
    rw [hk]
  | succ m ih =>
    intro k fuel searched hkm hfuel hns
    obtain ⟨fuel, rfl⟩ : ∃ f, fuel = f + 1 := ⟨fuel - 1, by omega⟩
    rw [diffLoop]
    rw [if_neg (by simp; omega)]
    rw [addNeighbors_del A k searched (by omega) (hns (k + 1) (by omega))]
    exact ih (k + 1) fuel ((k + 1, 0) :: searched) (by omega) (by omega)
      (by
        intro j hj hmem
        rcases List.mem_cons.mp hmem with h | h
        · simp only [Prod.mk.injEq] at h
          omega
        · exact hns j (by omega) h)

theorem reconstruct_del (A : List Nat) : ∀ (k : Nat), k ≤ A.length →
    reconstructLoop A [] (delChain k) ⟨.del, A.drop k⟩ [] = [⟨.del, A⟩] := by
  intro k
  induction k with
  | zero =>
    intro _
    simp [delChain, reconstructLoop]
  | succ k ih =>
    intro hk
    show reconstructLoop A [] (.child (k + 1) (k + 1) 0 (delChain k)) ⟨.del, A.drop (k + 1)⟩ []
      = [⟨.del, A⟩]
    rw [reconstructLoop]
    simp only [delChain_aidx, delChain_bidx]
    have hA : ¬(k ≠ k + 1 ∧ ¬(0 : Nat) = 0) := by simp
    have hA2 : k ≠ k + 1 := by omega
    simp only [if_neg hA, if_pos hA2]
    rw [if_neg (by simp)]
    rw [← drop_cons_getD A k (by omega)]
    exact ih (by omega)

theorem Diff_empty_right (A : List Nat) (hA : A ≠ []) :
    Diff A [] = some [⟨.del, A⟩] := by
  have hinit : Diff A [] =
      match diffLoop A [] (diffFuel A []) ⟨[], [(0, 0)]⟩ (.root 0 0 0) with
      | none => none
      | some terminal => some (reconstructLoop A [] terminal ⟨.nil, []⟩ []) := rfl
  have hfuel : A.length < diffFuel A [] := by
    unfold diffFuel
    simp only [List.length_nil]
    omega
  have hloop := diffLoop_del A A.length 0 (diffFuel A []) [(0, 0)]
    (by omega) hfuel
    (by
      intro j hj hmem
      simp only [List.mem_cons, List.not_mem_nil, or_false] at hmem
      simp only [Prod.mk.injEq] at hmem
      omega)
  rw [hinit]
  have hd0 : delChain 0 = EditSegment.root 0 0 0 := rfl
  rw [hd0] at hloop
  rw [hloop]
  obtain ⟨n, hn⟩ : ∃ n, A.length = n + 1 := by
    cases A with
    | nil => simp at hA
    | cons x t => exact ⟨t.length, by simp⟩
  rw [hn]
  show some (reconstructLoop A [] (.child (n + 1) (n + 1) 0 (delChain n)) ⟨.nil, []⟩ []) = _
  rw [reconstructLoop]
  simp only [delChain_aidx, delChain_bidx]
  have hA3 : ¬(n ≠ n + 1 ∧ ¬(0 : Nat) = 0) := by simp
  have hA2 : n ≠ n + 1 := by omega
  simp only [if_neg hA3, if_pos hA2]
  rw [if_pos (by simp : (⟨EditType.nil, []⟩ : Edit).editType ≠ EditType.del)]
  rw [if_neg (by simp : ¬(⟨EditType.nil, []⟩ : Edit).editType ≠ EditType.nil)]
  have hsing : [A.getD n 0] = A.drop n := by
    rw [drop_cons_getD A n (by omega)]
    have hdn : A.drop (n + 1) = [] := by
      rw [← hn]
      exact List.drop_length A
    rw [hdn]
  rw [hsing]
  rw [reconstruct_del A n (by omega)]

/-! ## Document-store lemmas -/

theorem mapLookup_mapInsert_self (m : MsgMap) (i : Nat) (v : Message) :
    mapLookup (mapInsert m i v) i = some v := by
  induction m with
  | nil =>
    simp [mapInsert, mapLookup]
  | cons p rest ih =>
    by_cases h : p.1 = i
    · simp [mapInsert, h, mapLookup]
    · simp only [mapInsert, if_neg h]
      unfold mapLookup
      rw [List.find?_cons_of_neg _ (by simpa using h)]
      exact ih

theorem mapLookup_mapInsert_ne (m : MsgMap) (i j : Nat) (v : Message) (h : j ≠ i) :
    mapLookup (mapInsert m i v) j = mapLookup m j := by
  induction m with
  | nil =>
    simp [mapInsert, mapLookup, Ne.symm h]
  | cons p rest ih =>
    by_cases hp : p.1 = i
    · simp only [mapInsert, if_pos hp]
      unfold mapLookup
      rw [List.find?_cons_of_neg _ (by simpa using Ne.symm h),
        List.find?_cons_of_neg _ (by rw [hp]; simpa using Ne.symm h)]
    · simp only [mapInsert, if_neg hp]
      by_cases hpj : p.1 = j
      · unfold mapLookup
        rw [List.find?_cons_of_pos _ (by simpa using hpj),
          List.find?_cons_of_pos _ (by simpa using hpj)]
      · unfold mapLookup
        rw [List.find?_cons_of_neg _ (by simpa using hpj),
          List.find?_cons_of_neg _ (by simpa using hpj)]
        exact ih

theorem mapInsert_mem (m : MsgMap) (i : Nat) (v : Message) :
    ∀ p ∈ mapInsert m i v, p.1 = i ∨ p ∈ m := by
  induction m with
  | nil =>
    intro p hp
    simp [mapInsert] at hp
    subst hp
    simp
  | cons q rest ih =>
    intro p hp
    by_cases h : q.1 = i
    · simp only [mapInsert, if_pos h] at hp
      cases List.mem_cons.mp hp with
      | inl he => subst he; simp
      | inr he => exact Or.inr (List.mem_cons_of_mem _ he)
    · simp only [mapInsert, if_neg h] at hp
      cases List.mem_cons.mp hp with
      | inl he => subst he; exact Or.inr (List.mem_cons_self _ _)
      | inr he =>
        cases ih p he with
        | inl h2 => exact Or.inl h2
        | inr h2 => exact Or.inr (List.mem_cons_of_mem _ h2)

theorem mapLookup_mem {m : MsgMap} {i : Nat} {v : Message}
    (h : mapLookup m i = some v) : (i, v) ∈ m := by
  unfold mapLookup at h
  cases hf : m.find? (fun p => p.1 = i) with
  | none => rw [hf] at h; simp at h
  | some p =>
    rw [hf] at h
    simp at h
    have hp := List.find?_some hf
    have hmem := List.mem_of_find?_eq_some hf
    simp only [decide_eq_true_eq] at hp
    have hpv : p = (i, v) := by
      cases p with
      | mk p1 p2 =>
        simp only at hp h
        simp [hp, h]
    rw [← hpv]
    exact hmem

/-! ## Store-invariant preservation (claim C5 machinery) -/

theorem storeInv_insert_seen (msgs : MsgMap) (render : List Nat) (i : Nat) (v : Message)
    (hinv : storeInv msgs render) (hseen : i ∈ render) :
    storeInv (mapInsert msgs i v) render := by
  refine ⟨hinv.1, ?_, ?_⟩
  · intro id hid
    by_cases h : id = i
    · subst h
      rw [mapLookup_mapInsert_self]
      rfl
    · rw [mapLookup_mapInsert_ne msgs i id v h]
      exact hinv.2.1 id hid
  · intro p hp
    cases mapInsert_mem msgs i v p hp with
    | inl h => rw [h]; exact hseen
    | inr h => exact hinv.2.2 p h

theorem storeInv_insert_new (msgs : MsgMap) (render : List Nat) (i : Nat) (v : Message)
    (hinv : storeInv msgs render) (hnew : mapLookup msgs i = none) :
    storeInv (mapInsert msgs i v) (render ++ [i]) := by
  have hnotc : i ∉ render := by
    intro hmem
    have := hinv.2.1 i hmem
    rw [hnew] at this
    simp at this
  refine ⟨?_, ?_, ?_⟩
  · rw [List.nodup_append]
    refine ⟨hinv.1, List.nodup_singleton i, ?_⟩
    intro a ha hb
    simp at hb
    subst hb
    exact hnotc ha
  · intro id hid
    rw [List.mem_append] at hid
    cases hid with
    | inl h =>
      by_cases he : id = i
      · subst he
        rw [mapLookup_mapInsert_self]
        rfl
      · rw [mapLookup_mapInsert_ne msgs i id v he]
        exact hinv.2.1 id h
    | inr h =>
      simp at h
      subst h
      rw [mapLookup_mapInsert_self]
      rfl
  · intro p hp
    cases mapInsert_mem msgs i v p hp with
    | inl h => rw [h]; simp
    | inr h => exact List.mem_append_left _ (hinv.2.2 p h)

theorem initMessage_inv {i : Nat} {nick handle : Option (List Nat)} {color : Option Nat}
    {msgs : MsgMap} {render : List Nat} {msgs2 : MsgMap} {render2 : List Nat}
    (hinv : storeInv msgs render) (hnew : mapLookup msgs i = none)
    (h : initMessage (some i) nick handle color msgs render = .ok (msgs2, render2)) :
    storeInv msgs2 render2 ∧ render <+: render2 := by
  unfold initMessage at h
  simp only [Except.ok.injEq, Prod.mk.injEq] at h
  obtain ⟨h1, h2⟩ := h
  subst h1
  subst h2
  exact ⟨storeInv_insert_new _ _ _ _ hinv hnew, List.prefix_append _ _⟩

theorem insertMessage_inv {i utf16Index : Nat} {body : List Nat}
    {msgs : MsgMap} {render : List Nat} {msgs2 : MsgMap} {render2 : List Nat}
    (hinv : storeInv msgs render)
    (h : insertMessage (some i) utf16Index body msgs render = .ok (msgs2, render2)) :
    storeInv msgs2 render2 ∧ render <+: render2 := by
  unfold insertMessage at h
  cases hl : mapLookup msgs i with
  | some m =>
    simp only [hl] at h
    simp only [Except.ok.injEq, Prod.mk.injEq] at h
    obtain ⟨h1, h2⟩ := h
    subst h1
    subst h2
    refine ⟨storeInv_insert_seen _ _ _ _ hinv ?_, List.prefix_refl _⟩
    exact hinv.2.2 _ (mapLookup_mem hl)
  | none =>
    simp only [hl] at h
    simp only [Except.ok.injEq, Prod.mk.injEq] at h
    obtain ⟨h1, h2⟩ := h
    subst h1
    subst h2
    exact ⟨storeInv_insert_new _ _ _ _ hinv hl, List.prefix_append _ _⟩

theorem deleteMessage_inv {i utf16Start utf16End : Nat}
    {msgs : MsgMap} {render : List Nat} {msgs2 : MsgMap} {render2 : List Nat}
    (hinv : storeInv msgs render)
    (h : deleteMessage (some i) utf16Start utf16End msgs render = .ok (msgs2, render2)) :
    storeInv msgs2 render2 ∧ render <+: render2 := by
  unfold deleteMessage at h
  cases hl : mapLookup msgs i with
  | some m =>
    simp only [hl] at h
    simp only [Except.ok.injEq, Prod.mk.injEq] at h
    obtain ⟨h1, h2⟩ := h
    subst h1
    subst h2
    refine ⟨storeInv_insert_seen _ _ _ _ hinv ?_, List.prefix_refl _⟩
    exact hinv.2.2 _ (mapLookup_mem hl)
  | none =>
    simp only [hl] at h
    simp only [Except.ok.injEq, Prod.mk.injEq] at h
    obtain ⟨h1, h2⟩ := h
    subst h1
    subst h2
    exact ⟨storeInv_insert_new _ _ _ _ hinv hl, List.prefix_append _ _⟩

theorem pubMessage_inv {i : Nat} {msgs msgs2 : MsgMap} (render : List Nat)
    (hinv : storeInv msgs render)
    (h : pubMessage (some i) msgs = .ok msgs2) :
    storeInv msgs2 render := by
  unfold pubMessage at h
  cases hl : mapLookup msgs i with
  | some m =>
    simp only [hl] at h
    simp only [Except.ok.injEq] at h
    subst h
    exact storeInv_insert_seen _ _ _ _ hinv (hinv.2.2 _ (mapLookup_mem hl))
  | none =>
    simp only [hl] at h
    simp only [Except.ok.injEq] at h
    subst h
    exact hinv

theorem editMessage_inv (i : Nat) : ∀ (edits : List WireEdit) (msgs : MsgMap)
    (render : List Nat) (msgs2 : MsgMap) (render2 : List Nat),
    storeInv msgs render →
    editMessage i edits msgs render = .ok (msgs2, render2) →
    storeInv msgs2 render2 ∧ render <+: render2 := by
  intro edits
  induction edits with
  | nil =>
    intro msgs render msgs2 render2 hinv h
    unfold editMessage at h
    simp only [Except.ok.injEq, Prod.mk.injEq] at h
    obtain ⟨h1, h2⟩ := h
    subst h1
    subst h2
    exact ⟨hinv, List.prefix_refl _⟩
  | cons e rest ih =>
    intro msgs render msgs2 render2 hinv h
    cases e with
    | insert _ idx body =>
      unfold editMessage at h
      cases hstep : insertMessage (some i) idx body msgs render with
      | error err =>
        rw [hstep] at h
        simp at h
      | ok pr =>
        rw [hstep] at h
        obtain ⟨m2, r2⟩ := pr
        obtain ⟨hinv2, hpre2⟩ := insertMessage_inv hinv hstep
        obtain ⟨hinv3, hpre3⟩ := ih m2 r2 msgs2 render2 hinv2 h
        exact ⟨hinv3, hpre2.trans hpre3⟩
    | delete _ s e2 =>
      unfold editMessage at h
      cases hstep : deleteMessage (some i) s e2 msgs render with
      | error err =>
        rw [hstep] at h
        simp at h
      | ok pr =>
        rw [hstep] at h
        obtain ⟨m2, r2⟩ := pr
        obtain ⟨hinv2, hpre2⟩ := deleteMessage_inv hinv hstep
        obtain ⟨hinv3, hpre3⟩ := ih m2 r2 msgs2 render2 hinv2 h
        exact ⟨hinv3, hpre2.trans hpre3⟩

theorem applyEvents_inv : ∀ (evs : List Event) (cm cm2 : ChannelModel),
    storeInv cm.msgs cm.render → noReinit cm evs = true →
    applyEvents cm evs = .ok cm2 →
    storeInv cm2.msgs cm2.render ∧ cm.render <+: cm2.render := by
  intro evs
  induction evs with
  | nil =>
    intro cm cm2 hinv _ h
    unfold applyEvents at h
    simp only [Except.ok.injEq] at h
    subst h
    exact ⟨hinv, List.prefix_refl _⟩
  | cons e rest ih =>
    intro cm cm2 hinv hnr h
    unfold applyEvents at h
    unfold noReinit at hnr
    cases hstep : updateConnected cm e with
    | error err =>
      rw [hstep] at h
      simp at h
    | ok cmm =>
      rw [hstep] at h
      rw [hstep] at hnr
      rw [Bool.and_eq_true] at hnr
      obtain ⟨hre, hnr2⟩ := hnr
      have hstep2 : storeInv cmm.msgs cmm.render ∧ cm.render <+: cmm.render := by
        cases e with
        | init id nick handle color echoed =>
          simp only [updateConnected] at hstep
          cases id with
          | none => simp [initMessage] at hstep
          | some j =>
            have hnone : mapLookup cm.msgs j = none := by
              simpa [Option.isNone_iff_eq_none] using hre
            cases hM : initMessage (some j) nick handle color cm.msgs cm.render with
            | error err2 =>
              rw [hM] at hstep
              simp at hstep
            | ok pr =>
              rw [hM] at hstep
              obtain ⟨ms, rd⟩ := pr
              simp only [Except.ok.injEq] at hstep
              subst hstep
              simpa using initMessage_inv hinv hnone hM
        | insert id idx body =>
          simp only [updateConnected] at hstep
          cases id with
          | none => simp [insertMessage] at hstep
          | some j =>
            cases hM : insertMessage (some j) idx body cm.msgs cm.render with
            | error err2 =>
              rw [hM] at hstep
              simp at hstep
            | ok pr =>
              rw [hM] at hstep
              obtain ⟨ms, rd⟩ := pr
              simp only [Except.ok.injEq] at hstep
              subst hstep
              simpa using insertMessage_inv hinv hM
        | delete id st en =>
          simp only [updateConnected] at hstep
          cases id with
          | none => simp [deleteMessage] at hstep
          | some j =>
            cases hM : deleteMessage (some j) st en cm.msgs cm.render with
            | error err2 =>
              rw [hM] at hstep
              simp at hstep
            | ok pr =>
              rw [hM] at hstep
              obtain ⟨ms, rd⟩ := pr
              simp only [Except.ok.injEq] at hstep
              subst hstep
              simpa using deleteMessage_inv hinv hM
        | pub id =>
          simp only [updateConnected] at hstep
          cases id with
          | none => simp [pubMessage] at hstep
          | some j =>
            cases hM : pubMessage (some j) cm.msgs with
            | error err2 =>
              rw [hM] at hstep
              simp at hstep
            | ok ms =>
              rw [hM] at hstep
              simp only [Except.ok.injEq] at hstep
              subst hstep
              exact ⟨pubMessage_inv cm.render hinv hM, List.prefix_refl _⟩
        | editbatch id edits =>
          simp only [updateConnected] at hstep
          cases id with
          | none =>
            simp only [Except.ok.injEq] at hstep
            subst hstep
            exact ⟨hinv, List.prefix_refl _⟩
          | some j =>
            cases hM : editMessage j edits cm.msgs cm.render with
            | error err2 => simp [hM] at hstep
            | ok pr =>
              obtain ⟨ms, rd⟩ := pr
              simp only [hM, Except.ok.injEq] at hstep
              subst hstep
              simpa using editMessage_inv j edits cm.msgs cm.render ms rd hinv hM
      obtain ⟨hinv2, hpre2⟩ := hstep2
      obtain ⟨hinv3, hpre3⟩ := ih cmm cm2 hinv2 hnr2 h
      exact ⟨hinv3, hpre2.trans hpre3⟩

/-! ## Encoder-policy refinement (claim C3 machinery) -/

theorem sendEditBatchLoop_eq_encodeSpec : ∀ (edits : List Edit) (idx : Nat),
    (∀ e ∈ edits, e.editType ≠ .nil) →
    sendEditBatchLoop idx edits = encodeSpec idx edits := by
  intro edits
  induction edits with
  | nil =>
    intro idx _
    rfl
  | cons e rest ih =>
    intro idx hnn
    have hrest : ∀ x ∈ rest, x.editType ≠ .nil :=
      fun x hx => hnn x (List.mem_cons_of_mem _ hx)
    unfold sendEditBatchLoop encodeSpec
    cases het : e.editType with
    | add =>
      simp only [het]
      rw [ih _ hrest]
    | keep =>
      simp only [het]
      rw [ih _ hrest]
    | del =>
      simp only [het]
      rw [ih _ hrest]
    | nil => exact absurd het (hnn e (List.mem_cons_self _ _))

/-! ## Space padding of inserts (claim C7 machinery) -/

theorem utf16Encode_append (a b : List Nat) :
    utf16Encode (a ++ b) = utf16Encode a ++ utf16Encode b := by
  simp [utf16Encode]

theorem insertAt_pad (base : List Nat) (index : Nat) (ins : List Nat)
    (h : (utf16Encode base).length < index) :
    insertAtUTF16Index base index ins =
      utf16Decode (utf16Encode base ++
        List.replicate (index - (utf16Encode base).length) 32 ++ utf16Encode ins) := by
  simp only [insertAtUTF16Index]
  rw [if_pos h]
  have hrep : utf16Encode (List.replicate (index - (utf16Encode base).length) 32) =
      List.replicate (index - (utf16Encode base).length) 32 := by
    refine utf16Encode_bmp ?_
    intro u hu
    rw [List.eq_of_mem_replicate hu]
    exact Or.inl (by norm_num)
  rw [utf16Encode_append, hrep]
  have hlen : (utf16Encode base ++
      List.replicate (index - (utf16Encode base).length) 32).length = index := by
    simp
    omega
  rw [List.take_of_length_le (le_of_eq hlen), List.drop_eq_nil_of_le (le_of_eq hlen),
    List.append_nil]

/-! ## The claims -/

/-- Claim C1 (code bug).  Validity holds: for every pair of code-unit
sequences `Diff` returns a script accounting for every position of both
inputs exactly once.  Minimality does not: for `A = "aaa"`,
`B = "aaba"` the returned script spends 3 non-Keep code units while the
true insert/delete edit distance is 1 — the heap's `siftDown` never
compares its two children, so a heavier segment can be popped first. -/
theorem claim1_minimality_bug :
    (∀ A B : List Nat, ∃ es, Diff A B = some es ∧ AccRuns es A B) ∧
    Diff [97, 97, 97] [97, 97, 98, 97] =
      some [⟨.keep, [97, 97]⟩, ⟨.del, [97]⟩, ⟨.add, [98, 97]⟩] ∧
    nonKeepCount [⟨.keep, [97, 97]⟩, ⟨.del, [97]⟩, ⟨.add, [98, 97]⟩] = 3 ∧
    levRef [97, 97, 97] [97, 97, 98, 97] = 1 :=
  ⟨Diff_some_acc, by decide, by decide, by decide⟩

/-- Claim C2 (amended).  For surrogate-free (BMP) texts, diffing the
encoded old and new texts, encoding the plan with `sendEditBatch`, and
applying the batch in order with the store's own apply rules reproduces
the new text exactly, including empty texts. -/
theorem claim2_roundtrip_bmp (oldT newT : List Nat)
    (hold : ∀ u ∈ oldT, isBMP u) (hnew : ∀ u ∈ newT, isBMP u) :
    ∃ es, Diff (utf16Encode oldT) (utf16Encode newT) = some es ∧
      applyLrcBatch oldT (sendEditBatch es) = newT :=
  diff_batch_roundtrip oldT newT hold hnew

/-- Witness for claim C2 at old = "hi", new = "ha". -/
theorem claim2_roundtrip_bmp_witness :
    ∃ es, Diff (utf16Encode [104, 105]) (utf16Encode [104, 97]) = some es ∧
      applyLrcBatch [104, 105] (sendEditBatch es) = [104, 97] :=
  claim2_roundtrip_bmp [104, 105] [104, 97] (by decide) (by decide)

/-- Counterexample to claim C2 as stated: for old = [U+1D11E] and
new = [U+1D122] (both non-BMP, so each is a surrogate pair on the
wire), the diff splits the pairs, the emitted batch re-inserts a lone
low surrogate, and the store's decode replaces both halves with U+FFFD:
the round trip yields [U+FFFD, U+FFFD], not the new text. -/
theorem claim2_counterexample :
    Diff (utf16Encode [0x1D11E]) (utf16Encode [0x1D122]) =
      some [⟨.keep, [0xD834]⟩, ⟨.del, [0xDD1E]⟩, ⟨.add, [0xDD22]⟩] ∧
    applyLrcBatch [0x1D11E]
      (sendEditBatch [⟨.keep, [0xD834]⟩, ⟨.del, [0xDD1E]⟩, ⟨.add, [0xDD22]⟩]) =
      [0xFFFD, 0xFFFD] ∧
    ([0xFFFD, 0xFFFD] : List Nat) ≠ [0x1D122] :=
  ⟨by decide, by decide, by decide⟩

/-- Claim C3 (confirmed).  `sendEditBatch` implements exactly the
spec's cursor policy (`encodeSpec`) on every plan made of
Keep/Add/Delete runs, and the "hello" → "hallo" scenario produces the
script Keep "h", Del "e", Add "a", Keep "llo" and the batch
[Delete(1,2), Insert(1,"a")]. -/
theorem claim3_encoder_policy :
    (∀ edits : List Edit, (∀ e ∈ edits, e.editType ≠ .nil) →
      sendEditBatch edits = encodeSpec 0 edits) ∧
    Diff (utf16Encode [104, 101, 108, 108, 111]) (utf16Encode [104, 97, 108, 108, 111]) =
      some [⟨.keep, [104]⟩, ⟨.del, [101]⟩, ⟨.add, [97]⟩, ⟨.keep, [108, 108, 111]⟩] ∧
    sendEditBatch [⟨.keep, [104]⟩, ⟨.del, [101]⟩, ⟨.add, [97]⟩, ⟨.keep, [108, 108, 111]⟩] =
      [.delete 1 2, .insert 1 [97]] :=
  ⟨fun edits h => sendEditBatchLoop_eq_encodeSpec edits 0 h, by decide, by decide⟩

/-- Witness for claim C3: the refinement instantiated on a concrete
nil-free plan. -/
theorem claim3_encoder_policy_witness :
    sendEditBatch [⟨.del, [101]⟩, ⟨.add, [97]⟩] = encodeSpec 0 [⟨.del, [101]⟩, ⟨.add, [97]⟩] :=
  claim3_encoder_policy.1 [⟨.del, [101]⟩, ⟨.add, [97]⟩] (by decide)

/-- Claim C4 (amended).  When the Init echo is processed first, the
later signetView record with matching `lrcId` completes the
correlation (both `myid` and `signeturi` end up set); but when the
signetView record arrives first, `updateSv` ignores it because `myid`
is still unset, so the two events do **not** commute as the spec
claims. -/
theorem claim4_amended (cm : ChannelModel) (n : Nat) (uri : List Nat) (cm2 : ChannelModel)
    (hmy : cm.myid = none)
    (hecho : updateConnected cm (.init (some n) none none none (some true)) = .ok cm2) :
    cm2.myid = some n ∧
    (updateSv cm2 ⟨uri, n⟩).myid = some n ∧
    (updateSv cm2 ⟨uri, n⟩).signeturi = some uri ∧
    updateSv cm ⟨uri, n⟩ = cm := by
  have hsv : updateSv cm ⟨uri, n⟩ = cm := by
    unfold updateSv
    rw [hmy]
  simp only [updateConnected, initMessage] at hecho
  simp only [Except.ok.injEq] at hecho
  subst hecho
  refine ⟨by simp, ?_, ?_, hsv⟩
  · simp [updateSv]
  · simp [updateSv]

/-- Witness for claim C4 at n = 7, uri = "u", from the empty state. -/
theorem claim4_amended_witness :
    (⟨[(7, ⟨none, none, none, true, []⟩)], [7], some 7, none⟩ : ChannelModel).myid = some 7 ∧
    (updateSv ⟨[(7, ⟨none, none, none, true, []⟩)], [7], some 7, none⟩ ⟨[117], 7⟩).myid =
      some 7 ∧
    (updateSv ⟨[(7, ⟨none, none, none, true, []⟩)], [7], some 7, none⟩ ⟨[117], 7⟩).signeturi =
      some [117] ∧
    updateSv ⟨[], [], none, none⟩ ⟨[117], 7⟩ = ⟨[], [], none, none⟩ :=
  claim4_amended ⟨[], [], none, none⟩ 7 [117]
    ⟨[(7, ⟨none, none, none, true, []⟩)], [7], some 7, none⟩ rfl (by rfl)

/-- Counterexample to claim C4 as stated: delivering the signetView
record first and the Init echo second leaves `signeturi` unset — the
URI is dropped, and the draft never becomes publishable. -/
theorem claim4_counterexample :
    updateSv ⟨[], [], none, none⟩ ⟨[117], 7⟩ = ⟨[], [], none, none⟩ ∧
    updateConnected (updateSv ⟨[], [], none, none⟩ ⟨[117], 7⟩)
        (.init (some 7) none none none (some true)) =
      .ok ⟨[(7, ⟨none, none, none, true, []⟩)], [7], some 7, none⟩ ∧
    (⟨[(7, ⟨none, none, none, true, []⟩)], [7], some 7, none⟩ : ChannelModel).signeturi =
      none :=
  ⟨rfl, rfl, rfl⟩

/-- Claim C5 (amended).  As long as no Init arrives for an id that is
already in the message map (`noReinit`), every event sequence
preserves the display-order invariant — the render list has exactly
one entry per observed id, new ids are appended and existing entries
never move (the old render list stays a prefix). -/
theorem claim5_amended (evs : List Event) (cm cm2 : ChannelModel)
    (hinv : storeInv cm.msgs cm.render) (hnr : noReinit cm evs = true)
    (h : applyEvents cm evs = .ok cm2) :
    storeInv cm2.msgs cm2.render ∧ cm.render <+: cm2.render :=
  applyEvents_inv evs cm cm2 hinv hnr h

/-- Witness for claim C5 on the operation trace
Init 5, Insert 2, Pub 5, Init 9 from the empty store: first-appearance
order [5, 2, 9]. -/
theorem claim5_amended_witness :
    storeInv
      [(5, ⟨none, none, none, false, []⟩), (2, ⟨none, none, none, true, [120]⟩),
        (9, ⟨none, none, none, true, []⟩)] [5, 2, 9] ∧
    ([] : List Nat) <+: [5, 2, 9] :=
  claim5_amended
    [.init (some 5) none none none none, .insert (some 2) 0 [120], .pub (some 5),
      .init (some 9) none none none none]
    ⟨[], [], none, none⟩
    ⟨[(5, ⟨none, none, none, false, []⟩), (2, ⟨none, none, none, true, [120]⟩),
        (9, ⟨none, none, none, true, []⟩)], [5, 2, 9], none, none⟩
    (by decide) (by decide) (by rfl)

/-- Counterexample to claim C5 as stated: a second Init for an
already-seen id re-appends its render entry — the trace touching ids
[5, 2, 5, 9] via Init events leaves render order [5, 2, 5, 9] with a
duplicate, not the first-appearance order [5, 2, 9]. -/
theorem claim5_counterexample :
    applyEvents ⟨[], [], none, none⟩
      [.init (some 5) none none none none, .init (some 2) none none none none,
        .init (some 5) none none none none, .init (some 9) none none none none] =
      .ok ⟨[(5, ⟨none, none, none, true, []⟩), (2, ⟨none, none, none, true, []⟩),
        (9, ⟨none, none, none, true, []⟩)], [5, 2, 5, 9], none, none⟩ ∧
    ([5, 2, 5, 9] : List Nat) ≠ [5, 2, 9] ∧
    ¬ ([5, 2, 5, 9] : List Nat).Nodup :=
  ⟨rfl, by decide, by decide⟩

/-- Claim C6 (amended).  `Diff` returns a single Add run when A is
empty and B is not, a single Delete run when B is empty and A is not,
and a single Keep run when A = B are non-empty; but for two empty
inputs it returns the one-element script [Nil run], not the empty op
list the spec promises. -/
theorem claim6_amended :
    (∀ B : List Nat, B ≠ [] → Diff [] B = some [⟨.add, B⟩]) ∧
    (∀ A : List Nat, A ≠ [] → Diff A [] = some [⟨.del, A⟩]) ∧
    (∀ A : List Nat, A ≠ [] → Diff A A = some [⟨.keep, A⟩]) ∧
    Diff [] [] = some [⟨.nil, []⟩] :=
  ⟨Diff_empty_left, Diff_empty_right, Diff_eq_self, by decide⟩

/-- Witness for claim C6 at the one-element input [5]. -/
theorem claim6_amended_witness :
    Diff [] [5] = some [⟨.add, [5]⟩] ∧ Diff [5] [] = some [⟨.del, [5]⟩] ∧
    Diff [5] [5] = some [⟨.keep, [5]⟩] :=
  ⟨claim6_amended.1 [5] (by decide), claim6_amended.2.1 [5] (by decide),
    claim6_amended.2.2.1 [5] (by decide)⟩

/-- Counterexample to claim C6 as stated: for two empty inputs the op
list is [Nil run], not empty. -/
theorem claim6_counterexample :
    Diff [] [] = some [⟨.nil, []⟩] ∧ Diff [] [] ≠ some [] :=
  ⟨by decide, by decide⟩

/-- Claim C7 (confirmed).  Whenever the insert index exceeds the
current UTF-16 length, the text is first padded with ASCII spaces up
to the index and the body lands right after the padding; in the
scenario (text of length 2, index 5, body "x") the result has UTF-16
length 6, spaces at indices 2..4 and 'x' at index 5. -/
theorem claim7_padding :
    (∀ (base : List Nat) (index : Nat) (ins : List Nat),
      (utf16Encode base).length < index →
      insertAtUTF16Index base index ins =
        utf16Decode (utf16Encode base ++
          List.replicate (index - (utf16Encode base).length) 32 ++ utf16Encode ins)) ∧
    insertAtUTF16Index [97, 98] 5 [120] = [97, 98, 32, 32, 32, 120] ∧
    (utf16Encode (insertAtUTF16Index [97, 98] 5 [120])).length = 6 ∧
    (utf16Encode (insertAtUTF16Index [97, 98] 5 [120])).getD 2 0 = 32 ∧
    (utf16Encode (insertAtUTF16Index [97, 98] 5 [120])).getD 3 0 = 32 ∧
    (utf16Encode (insertAtUTF16Index [97, 98] 5 [120])).getD 4 0 = 32 ∧
    (utf16Encode (insertAtUTF16Index [97, 98] 5 [120])).getD 5 0 = 120 :=
  ⟨insertAt_pad, by decide, by decide, by decide, by decide, by decide, by decide⟩

/-- Witness for claim C7: the padding law instantiated at the
scenario's input. -/
theorem claim7_padding_witness :
    insertAtUTF16Index [97, 98] 5 [120] =
      utf16Decode (utf16Encode [97, 98] ++
        List.replicate (5 - (utf16Encode [97, 98]).length) 32 ++ utf16Encode [120]) :=
  claim7_padding.1 [97, 98] 5 [120] (by decide)

/-- Claim C8 (amended).  An absent id is a hard error for Init,
Insert, Delete and Pub events — but an EditBatch whose outer id is
absent is silently absorbed: the update returns the model unchanged
with no error. -/
theorem claim8_amended (cm : ChannelModel) (nick handle : Option (List Nat))
    (color : Option Nat) (echoed : Option Bool) (idx s e : Nat) (body : List Nat)
    (edits : List WireEdit) :
    (∃ msg, updateConnected cm (.init none nick handle color echoed) = .error msg) ∧
    (∃ msg, updateConnected cm (.insert none idx body) = .error msg) ∧
    (∃ msg, updateConnected cm (.delete none s e) = .error msg) ∧
    (∃ msg, updateConnected cm (.pub none) = .error msg) ∧
    updateConnected cm (.editbatch none edits) = .ok cm :=
  ⟨⟨"beeped up", rfl⟩, ⟨"no insert id", rfl⟩, ⟨"no insert id", rfl⟩, ⟨"no pub id", rfl⟩, rfl⟩

/-- Counterexample to claim C8 as stated: an EditBatch with an absent
outer id (even one carrying sub-edits) is not surfaced as an error —
it is absorbed and the model is returned unchanged. -/
theorem claim8_counterexample :
    updateConnected ⟨[], [], none, none⟩ (.editbatch none [.insert none 0 [120]]) =
      .ok ⟨[], [], none, none⟩ :=
  rfl

/-- Claim C9 (code bug).  The lex listener and the writer stop at
their first failure as specified, but `listenToConn` does not: after a
read error it sends the error, then falls through, ignores the
unmarshal error of the empty frame, forwards it as an event, and keeps
reading — here it forwards another event after the failure. -/
theorem claim9_stream_stop_bug :
    listenToConn [.fail, .ok [1]] = [.errMsg, .lrcEvent [], .lrcEvent [1]] ∧
    listenToConn [.fail, .ok [1]] ≠ [.errMsg] ∧
    listenToLexConn [.fail, .signet [2]] = [.errMsg] ∧
    LRCWriter [([3], false), ([4], true)] = [.errMsg] :=
  ⟨rfl, by decide, rfl, rfl⟩

/-- Claim C10 (confirmed).  A Pub for an unseen id leaves the message
map untouched and creates nothing; a Pub for a seen id rewrites
exactly that entry with its `active` flag cleared (every other lookup
is unchanged), and the render list is never modified. -/
theorem claim10_pub_frame (msgs : MsgMap) (i : Nat) :
    (mapLookup msgs i = none → pubMessage (some i) msgs = .ok msgs) ∧
    (∀ m, mapLookup msgs i = some m →
      pubMessage (some i) msgs = .ok (mapInsert msgs i { m with active := false }) ∧
      mapLookup (mapInsert msgs i { m with active := false }) i =
        some { m with active := false } ∧
      (∀ j, j ≠ i → mapLookup (mapInsert msgs i { m with active := false }) j =
        mapLookup msgs j)) ∧
    (∀ cm cm2 : ChannelModel, updateConnected cm (.pub (some i)) = .ok cm2 →
      cm2.render = cm.render) := by
  refine ⟨?_, ?_, ?_⟩
  · intro h
    simp only [pubMessage, h]
  · intro m h
    refine ⟨?_, mapLookup_mapInsert_self _ _ _, fun j hj => mapLookup_mapInsert_ne _ _ _ _ hj⟩
    simp only [pubMessage, h]
  · intro cm cm2 h
    simp only [updateConnected] at h
    cases hM : pubMessage (some i) cm.msgs with
    | error e =>
      rw [hM] at h
      simp at h
    | ok ms =>
      rw [hM] at h
      simp only [Except.ok.injEq] at h
      subst h
      rfl

/-- Witness for claim C10: a seen id has its active flag cleared in
place, an unseen id is a no-op. -/
theorem claim10_pub_frame_witness :
    pubMessage (some 3) [(3, ⟨none, none, none, true, [7]⟩)] =
      .ok (mapInsert [(3, ⟨none, none, none, true, [7]⟩)] 3 ⟨none, none, none, false, [7]⟩) ∧
    pubMessage (some 4) [(3, ⟨none, none, none, true, [7]⟩)] =
      .ok [(3, ⟨none, none, none, true, [7]⟩)] :=
  ⟨((claim10_pub_frame [(3, ⟨none, none, none, true, [7]⟩)] 3).2.1
      ⟨none, none, none, true, [7]⟩ (by decide)).1,
    (claim10_pub_frame [(3, ⟨none, none, none, true, [7]⟩)] 4).1 (by decide)⟩

end Ttyxcvr
